import Mathlib

/-!
Verification of the OR5-paintshop schedule / move / search core.

The Python sources are shallowly embedded:
* `PaintShop` (paintshop.py) — problem parameters and the lookup functions
  `get_processing_time`, `get_setup_time`, `get_penalty`;
* schedule queues are `List (List ℕ)` (outer index: machine, inner: queue
  position), matching `Schedule.queues` in schedule.py, and the cost engine
  `get_cost_machine` / `get_cost` is translated as a structural recursion;
* the move family (move.py) — `SwapMove`, `MoveMove`, `SwapQueuesMove`,
  `SwapBatchMove` — both their `get_moved` application and their `get_moves`
  enumeration;
* the combinatorial indexer (sterling.py, solution_space.py);
* the move-selection strategies (moveSelectionStrategy.py) and the
  greedy-descent / tabu controllers (heuristics_improvement.py).

Machine times and costs are modelled over `ℚ` (the Python code uses floats,
but every operation involved is exact field arithmetic).
-/

namespace PaintshopProof

/-- Problem-instance parameters, as read off `PaintShop.__init__` in
paintshop.py after the spreadsheet columns have been decoded: per-order
surface, color id, deadline and penalty rate, per-machine speed, and the
color-to-color setup-time table. -/
structure PaintShop where
  machine_speeds : List ℚ
  order_ids : List ℕ
  surface : ℕ → ℚ
  color : ℕ → ℕ
  deadline : ℕ → ℚ
  penaltyRate : ℕ → ℚ
  setupColor : ℕ → ℕ → ℚ

namespace PaintShop

/-- `PaintShop.machine_ids`: machine ids are the dense range of indices of the
machines table. -/
def machine_ids (ps : PaintShop) : List ℕ := List.range ps.machine_speeds.length

/-- `PaintShop.get_processing_time`: surface divided by machine speed. -/
def get_processing_time (ps : PaintShop) (order : ℕ) (machine : ℕ) : ℚ :=
  ps.surface order / ps.machine_speeds.getD machine 1

/-- `PaintShop.get_setup_time`: `0` when there is no previous order
(`order_old == None`); `0` for an order followed by itself; otherwise the
color-to-color setup table entry (which is `0` for color pairs absent from
the setups sheet, via `first_or_0`). -/
def get_setup_time (ps : PaintShop) (order_old : Option ℕ) (order_new : ℕ) : ℚ :=
  match order_old with
  | none => 0
  | some o =>
      if o = order_new then 0
      else ps.setupColor (ps.color o) (ps.color order_new)

/-- `PaintShop.get_penalty`: penalty rate times the tardiness
`max 0 (t_done - deadline)`. -/
def get_penalty (ps : PaintShop) (order : ℕ) (t_done : ℚ) : ℚ :=
  ps.penaltyRate order * max 0 (t_done - ps.deadline order)

end PaintShop

/-- The running time/penalty recursion of `Schedule.get_cost_machine`
(schedule.py): walking the queue, `t` grows by the processing time of the
current order plus the setup time from the previous order, and the penalty of
the order is taken at that `t`.  This returns the list of the successive `t`
values (the completion time recorded for each queue position). -/
def completionsFrom (ps : PaintShop) (m : ℕ) (last : Option ℕ) (t : ℚ) :
    List ℕ → List ℚ
  | [] => []
  | o :: rest =>
      let t1 := t + ps.get_processing_time o m + ps.get_setup_time last o
      t1 :: completionsFrom ps m (some o) t1 rest

/-- The per-position penalties stored in `self.penalties[(machine_id, qi)]` by
`Schedule.get_cost_machine`. -/
def penaltiesFrom (ps : PaintShop) (m : ℕ) (last : Option ℕ) (t : ℚ) :
    List ℕ → List ℚ
  | [] => []
  | o :: rest =>
      let t1 := t + ps.get_processing_time o m + ps.get_setup_time last o
      ps.get_penalty o t1 :: penaltiesFrom ps m (some o) t1 rest

/-- `Schedule.get_cost_machine`: total penalty of one machine's queue. -/
def get_cost_machine (ps : PaintShop) (m : ℕ) (queue : List ℕ) : ℚ :=
  (penaltiesFrom ps m none 0 queue).sum

/-- `Schedule.get_cost`: sum of `get_cost_machine` over all machines. -/
def get_cost (ps : PaintShop) (queues : List (List ℕ)) : ℚ :=
  (ps.machine_ids.map (fun m => get_cost_machine ps m (queues.getD m []))).sum

/-! ### Move applications (move.py) -/

/-- `schedule[(mi, qi)]`: read one queue entry (`Schedule.__getitem__`). -/
def getItem2 (queues : List (List ℕ)) (p : ℕ × ℕ) : ℕ :=
  (queues.getD p.1 []).getD p.2 0

/-- `schedule[(mi, qi)] = x`: write one queue entry (`Schedule.__setitem__`). -/
def setItem2 (queues : List (List ℕ)) (p : ℕ × ℕ) (x : ℕ) : List (List ℕ) :=
  queues.set p.1 ((queues.getD p.1 []).set p.2 x)

/-- Python slice read `l[i:j]` (for non-negative bounds). -/
def getSlice (l : List ℕ) (i j : ℕ) : List ℕ := (l.take j).drop i

/-- Python slice assignment `l[i:j] = xs` (for non-negative bounds):
`l[:i] + xs + l[max i j:]`. -/
def setSlice (l : List ℕ) (i j : ℕ) (xs : List ℕ) : List ℕ :=
  l.take i ++ xs ++ l.drop (max i j)

/-- Python `l[i:i] = [x]`: insertion before index `i`. -/
def insertAt (l : List ℕ) (i : ℕ) (x : ℕ) : List ℕ := l.take i ++ [x] ++ l.drop i

/-- `Schedule.__delitem__`: `self[m,:] = self[m,:i] + self[m,(i+1):]`. -/
def delAt (l : List ℕ) (i : ℕ) : List ℕ := l.take i ++ l.drop (i + 1)

/-- `SwapMove.get_moved`: `new[b] = old[a]; new[a] = old[b]` on a copy. -/
def swapMoved (a b : ℕ × ℕ) (old : List (List ℕ)) : List (List ℕ) :=
  setItem2 (setItem2 old b (getItem2 old a)) a (getItem2 old b)

/-- `MoveMove.get_moved`: insert `old[a]` before position `b`
(`new[b0, b1:b1] = [old[a]]`), then delete the source — at `a.2 + 1` when the
insertion happened earlier in the same queue, else at `a.2`. -/
def moveMoved (a b : ℕ × ℕ) (old : List (List ℕ)) : List (List ℕ) :=
  let new1 := old.set b.1 (insertAt (old.getD b.1 []) b.2 (getItem2 old a))
  if a.1 = b.1 ∧ b.2 < a.2 then
    new1.set a.1 (delAt (new1.getD a.1 []) (a.2 + 1))
  else
    new1.set a.1 (delAt (new1.getD a.1 []) a.2)

/-- `SwapQueuesMove.get_moved`: `new[ma,:] = old[mb,:]; new[mb,:] = old[ma,:]`. -/
def swapQueuesMoved (ma mb : ℕ) (old : List (List ℕ)) : List (List ℕ) :=
  (old.set ma (old.getD mb [])).set mb (old.getD ma [])

/-- `SwapBatchMove.get_moved`: swap the contents of two slices, both read from
`old`; when the two slices are on the same machine the later-starting slice is
assigned first (`slice1.indices(len)[0] > slice2.indices(len)[0]` branch). -/
def swapBatchMoved (m1 : ℕ) (s1 : ℕ × ℕ) (m2 : ℕ) (s2 : ℕ × ℕ)
    (old : List (List ℕ)) : List (List ℕ) :=
  if m1 = m2 then
    let queue := old.getD m1 []
    if min s2.1 queue.length < min s1.1 queue.length then
      let q1 := setSlice queue s1.1 s1.2 (getSlice queue s2.1 s2.2)
      old.set m1 (setSlice q1 s2.1 s2.2 (getSlice queue s1.1 s1.2))
    else
      let q1 := setSlice queue s2.1 s2.2 (getSlice queue s1.1 s1.2)
      old.set m1 (setSlice q1 s1.1 s1.2 (getSlice queue s2.1 s2.2))
  else
    (old.set m1 (setSlice (old.getD m1 []) s1.1 s1.2
        (getSlice (old.getD m2 []) s2.1 s2.2))).set m2
      (setSlice (old.getD m2 []) s2.1 s2.2
        (getSlice (old.getD m1 []) s1.1 s1.2))

/-! ### The concrete scenario of the spec (section 8) -/

/-- The 3-order, 1-machine instance of the spec's concrete scenario:
colors A,A,B (encoded 0,0,1), surfaces 10,10,5, deadlines 5,5,5, penalty
rate 1 each, one machine of speed 1, `setup(A,B) = 2`, all other color pairs
(including `setup(A,A)`) `0`. -/
def PS1 : PaintShop where
  machine_speeds := [1]
  order_ids := [0, 1, 2]
  surface := fun o => [(10 : ℚ), 10, 5].getD o 0
  color := fun o => [0, 0, 1].getD o 0
  deadline := fun _ => 5
  penaltyRate := fun _ => 1
  setupColor := fun c1 c2 => if c1 = 0 ∧ c2 = 1 then 2 else 0

/-- C1: in the spec's concrete scenario, queue `[0,1,2]` has the code's
completion times `10, 20, 27`, per-order penalties `5, 15, 22`, total cost
`42`; queue `[0,2,1]` has completion times `10, 17, 27`, penalties
`5, 12, 22`, total cost `39`; and the `SwapMove` exchanging queue positions
`1` and `2` turns the first schedule into one whose recomputed total cost is
`39`. -/
theorem c1_concrete_scenario :
    completionsFrom PS1 0 none 0 [0, 1, 2] = [10, 20, 27] ∧
    penaltiesFrom PS1 0 none 0 [0, 1, 2] = [5, 15, 22] ∧
    get_cost PS1 [[0, 1, 2]] = 42 ∧
    completionsFrom PS1 0 none 0 [0, 2, 1] = [10, 17, 27] ∧
    penaltiesFrom PS1 0 none 0 [0, 2, 1] = [5, 12, 22] ∧
    get_cost PS1 [[0, 2, 1]] = 39 ∧
    swapMoved (0, 1) (0, 2) [[0, 1, 2]] = [[0, 2, 1]] ∧
    get_cost PS1 (swapMoved (0, 1) (0, 2) [[0, 1, 2]]) = 39 := by
  refine ⟨?_, ?_, ?_, ?_, ?_, ?_, ?_, ?_⟩ <;>
    norm_num [completionsFrom, penaltiesFrom, get_cost, get_cost_machine,
      PaintShop.machine_ids, PaintShop.get_processing_time,
      PaintShop.get_setup_time, PaintShop.get_penalty, PS1, swapMoved,
      setItem2, getItem2, List.range_succ]

/-! ### Schedule equality and hashing (schedule.py) -/

/-- The `Schedule` state: the per-machine queues together with the
per-position penalty cache (`self.penalties`, a dict keyed by
`(machine, queue index)`). -/
structure Schedule where
  queues : List (List ℕ)
  penalties : List ((ℕ × ℕ) × ℚ)

/-- `Schedule.__eq__`: two schedules are equal iff their queues are equal. -/
def scheduleEq (a b : Schedule) : Bool := a.queues == b.queues

/-- The string `'|'.join('-'.join(str(order) ...) ...)` that
`Schedule.__hash__` feeds to Python's `hash`. -/
def hashString (s : Schedule) : String :=
  String.intercalate "|" (s.queues.map fun q =>
    String.intercalate "-" (q.map fun o => toString o))

/-- `Schedule.__hash__`: a deterministic hash of `hashString` (Python's string
hash is modelled by `String.hash`; any deterministic function of the encoded
string yields the properties proved below). -/
def scheduleHash (s : Schedule) : UInt64 := (hashString s).hash

/-- C9: schedule equality holds exactly when the per-machine queues are equal
— whatever the cached penalties are — and equal queues give equal hashes. -/
theorem schedule_eq_hash_queues_only (a b : Schedule) :
    (scheduleEq a b = true ↔ a.queues = b.queues) ∧
    (a.queues = b.queues → scheduleHash a = scheduleHash b) := by
  refine ⟨by simp [scheduleEq], fun h => ?_⟩
  simp [scheduleHash, hashString, h]

/-- Witness for C9 at a concrete pair differing only in the penalty cache. -/
theorem schedule_eq_hash_queues_only_witness :
    scheduleEq ⟨[[1, 2], []], [((0, 0), 5)]⟩ ⟨[[1, 2], []], []⟩ = true ∧
    scheduleHash ⟨[[1, 2], []], [((0, 0), 5)]⟩ = scheduleHash ⟨[[1, 2], []], []⟩ := by
  exact ⟨(schedule_eq_hash_queues_only ⟨[[1, 2], []], [((0, 0), 5)]⟩
        ⟨[[1, 2], []], []⟩).1.mpr rfl,
    (schedule_eq_hash_queues_only ⟨[[1, 2], []], [((0, 0), 5)]⟩
        ⟨[[1, 2], []], []⟩).2 rfl⟩

/-! ### List helper lemmas -/

lemma getD_set_self {α} (l : List α) (m : ℕ) (v d : α) (hm : m < l.length) :
    (l.set m v).getD m d = v := by
  simp [List.getD, List.getElem?_set_self, hm]

lemma getD_set_ne {α} (l : List α) (m n : ℕ) (v d : α) (h : m ≠ n) :
    (l.set m v).getD n d = l.getD n d := by
  simp [List.getD, List.getElem?_set_ne h]

lemma getD_eq_default_of_le {α} (l : List α) (n : ℕ) (d : α) (h : l.length ≤ n) :
    l.getD n d = d := by
  simp [List.getD, List.getElem?_eq_none h]

/-- When a move touches a queue position, the machine index is in range. -/
lemma machine_lt_of_pos {queues : List (List ℕ)} {m i : ℕ}
    (hi : i < (queues.getD m []).length) : m < queues.length := by
  by_contra hm
  rw [getD_eq_default_of_le queues m [] (by omega)] at hi
  simp at hi

lemma delAt_insertAt_of_le (q : List ℕ) (i j x : ℕ) (hj : j ≤ i)
    (hi : i ≤ q.length) :
    delAt (insertAt q j x) (i + 1) = insertAt (delAt q i) j x := by
  unfold delAt insertAt
  have h1 : (q.take j ++ [x]).length = j + 1 := by simp; omega
  have h2 : (q.take i).length = i := by simp; omega
  have L1 : ((q.take j ++ [x]) ++ q.drop j).take (i+1)
      = (q.take j ++ [x]) ++ (q.drop j).take (i - j) := by
    rw [List.take_append_eq_append_take, h1,
      List.take_of_length_le (by omega)]
    congr 2
    omega
  have L2 : ((q.take j ++ [x]) ++ q.drop j).drop (i+1+1) = q.drop (i + 1) := by
    rw [List.drop_append_eq_append_drop, h1,
      List.drop_of_length_le (by omega), List.drop_drop]
    have e2 : j + (i + 1 + 1 - (j + 1)) = i + 1 := by omega
    rw [e2, List.nil_append]
  have R1 : (q.take i ++ q.drop (i+1)).take j = q.take j := by
    rw [List.take_append_eq_append_take, h2, List.take_take]
    have hmin : min j i = j := by omega
    have z : j - i = 0 := by omega
    simp [hmin, z]
  have R2 : (q.take i ++ q.drop (i+1)).drop j
      = (q.drop j).take (i - j) ++ q.drop (i+1) := by
    rw [List.drop_append_eq_append_drop, h2]
    have z : j - i = 0 := by omega
    rw [z, List.drop_zero, List.drop_take]
  rw [L1, L2, R1, R2]
  simp [List.append_assoc]

lemma delAt_insertAt_self (q : List ℕ) (i : ℕ) (hi : i < q.length) :
    delAt (insertAt q i (q.getD i 0)) i = insertAt (delAt q i) i (q.getD i 0) := by
  unfold delAt insertAt
  have h2 : (q.take i).length = i := by simp; omega
  have h1 : (q.take i ++ [q.getD i 0]).length = i + 1 := by simp [h2]
  have L1 : ((q.take i ++ [q.getD i 0]) ++ q.drop i).take i = q.take i := by
    rw [List.take_append_eq_append_take, h1, List.take_append_eq_append_take, h2,
      List.take_take]
    have z : i - i = 0 := by omega
    have z1 : i - (i + 1) = 0 := by omega
    simp [z, z1]
  have L2 : ((q.take i ++ [q.getD i 0]) ++ q.drop i).drop (i+1) = q.drop i := by
    rw [List.drop_append_eq_append_drop, h1, List.drop_of_length_le (by omega)]
    have z : i + 1 - (i + 1) = 0 := by omega
    simp [z]
  have R1 : (q.take i ++ q.drop (i+1)).take i = q.take i := by
    rw [List.take_append_eq_append_take, h2, List.take_take]
    have z : i - i = 0 := by omega
    simp [z]
  have R2 : (q.take i ++ q.drop (i+1)).drop i = q.drop (i+1) := by
    rw [List.drop_append_eq_append_drop, h2]
    have z : i - i = 0 := by omega
    simp [z]
  rw [L1, L2, R1, R2]
  rw [List.getD_eq_getElem q 0 hi, List.append_assoc, List.singleton_append,
    ← List.drop_eq_getElem_cons hi]

/-- C5: a relocate (`MoveMove`) whose source `(m, i)` and target `(m, j)` share
a machine, with `j ≤ i`, yields on machine `m` the original queue with the
order at index `i` removed and re-inserted immediately before the original
occupant of index `j`; all other queues and the relative order of all other
orders are unchanged. -/
theorem relocate_same_machine_target_before (queues : List (List ℕ)) (m i j : ℕ)
    (hj : j ≤ i) (hi : i < (queues.getD m []).length) :
    moveMoved (m, i) (m, j) queues =
      queues.set m (insertAt (delAt (queues.getD m []) i) j
        ((queues.getD m []).getD i 0)) := by
  have hm : m < queues.length := machine_lt_of_pos hi
  unfold moveMoved getItem2
  rcases Nat.lt_or_ge j i with hlt | hge
  · rw [if_pos ⟨rfl, hlt⟩, getD_set_self _ _ _ _ hm, List.set_set,
      delAt_insertAt_of_le _ _ _ _ hj (le_of_lt hi)]
  · have hij : j = i := by omega
    subst hij
    rw [if_neg (by simp), getD_set_self _ _ _ _ hm, List.set_set,
      delAt_insertAt_self _ _ hi]

/-- Witness for C5: relocating position 2 before position 0 in queue
`[10, 20, 30]`. -/
theorem relocate_same_machine_target_before_witness :
    (0 : ℕ) ≤ 2 ∧ (2 : ℕ) < (([[10, 20, 30]] : List (List ℕ)).getD 0 []).length ∧
    moveMoved (0, 2) (0, 0) [[10, 20, 30]] = [[30, 10, 20]] := by
  refine ⟨by decide, by decide, ?_⟩
  rw [relocate_same_machine_target_before [[10, 20, 30]] 0 2 0 (by decide) (by decide)]
  decide

/-! ### Move enumeration (move.py `get_moves`) -/

/-- `itertools.combinations(l, 2)`: all pairs `(l[i], l[j])` with `i < j`, in
lexicographic index order. -/
def pairsOf {α : Type} : List α → List (α × α)
  | [] => []
  | x :: xs => (xs.map fun y => (x, y)) ++ pairsOf xs

/-- The list `order_indices` built by `SwapMove.get_moves` and
`MoveMove.get_moves`: every `(machine_id, queue_index)` position of the
schedule, machines in id order, positions in queue order.  A schedule has one
queue per machine, so the machine ids are `range queues.length`. -/
def orderIndices (queues : List (List ℕ)) : List (ℕ × ℕ) :=
  (List.range queues.length).flatMap fun m =>
    (List.range (queues.getD m []).length).map fun qi => (m, qi)

/-- `SwapMove.get_moves`: all 2-combinations of the order positions. -/
def swapMovesEnum (queues : List (List ℕ)) : List ((ℕ × ℕ) × (ℕ × ℕ)) :=
  pairsOf (orderIndices queues)

/-- `Schedule.is_last_in_queue`: `index[1] == len(queue) - 1` (Python
subtraction, hence the `ℤ` cast: for an empty queue the right-hand side is
`-1` and the test is false). -/
def is_last_in_queue (queues : List (List ℕ)) (p : ℕ × ℕ) : Bool :=
  (p.2 : ℤ) == ((queues.getD p.1 []).length : ℤ) - 1

/-- `MoveMove.get_moves`: ordered pairs of distinct positions, plus, for every
position that is not last in its queue, a move to the end of each machine's
queue; then moves whose target is source−1, source+1 or source+2 on the same
machine are filtered out. -/
def moveMovesEnum (queues : List (List ℕ)) : List ((ℕ × ℕ) × (ℕ × ℕ)) :=
  let order_indices := orderIndices queues
  let all_possible_swaps := pairsOf order_indices
  let moves0 := all_possible_swaps ++ all_possible_swaps.map fun p => (p.2, p.1)
  let moves1 := moves0 ++ order_indices.flatMap fun oi =>
    if is_last_in_queue queues oi then []
    else (List.range queues.length).map fun m => (oi, (m, (queues.getD m []).length))
  moves1.filter fun mv =>
    !(mv.1.1 == mv.2.1 &&
      ((mv.2.2 : ℤ) == (mv.1.2 : ℤ) - 1 || mv.2.2 == mv.1.2 + 1 ||
        mv.2.2 == mv.1.2 + 2))

/-- `SwapQueuesMove.get_moves`: all 2-combinations of the machine ids. -/
def swapQueuesMovesEnum (queues : List (List ℕ)) : List (ℕ × ℕ) :=
  pairsOf (List.range queues.length)

lemma getD_map_length (queues : List (List ℕ)) (m : ℕ) :
    (queues.map List.length).getD m 0 = (queues.getD m []).length := by
  simp only [List.getD, List.getElem?_map]
  cases hq : queues[m]? <;> simp [hq]

lemma length_profile_getD {q1 q2 : List (List ℕ)}
    (h : q1.map List.length = q2.map List.length) (m : ℕ) :
    (q1.getD m []).length = (q2.getD m []).length := by
  rw [← getD_map_length, ← getD_map_length, h]

lemma length_profile_len {q1 q2 : List (List ℕ)}
    (h : q1.map List.length = q2.map List.length) : q1.length = q2.length := by
  have := congrArg List.length h
  simpa using this

lemma orderIndices_profile {q1 q2 : List (List ℕ)}
    (h : q1.map List.length = q2.map List.length) :
    orderIndices q1 = orderIndices q2 := by
  unfold orderIndices
  rw [length_profile_len h]
  congr 1
  funext m
  rw [length_profile_getD h]

lemma is_last_in_queue_profile {q1 q2 : List (List ℕ)}
    (h : q1.map List.length = q2.map List.length) (p : ℕ × ℕ) :
    is_last_in_queue q1 p = is_last_in_queue q2 p := by
  unfold is_last_in_queue
  rw [length_profile_getD h]

/-- C10: the `SwapMove`, `MoveMove` and `SwapQueuesMove` enumerations depend
only on the queue-length profile of the schedule — two schedules with the
same number of machines and the same per-machine queue lengths get identical
move lists, so the queue-length-keyed `move_cache` in `get_moves` never
changes which of these moves are enumerated. -/
theorem move_enumeration_depends_only_on_lengths (q1 q2 : List (List ℕ))
    (h : q1.map List.length = q2.map List.length) :
    swapMovesEnum q1 = swapMovesEnum q2 ∧
    moveMovesEnum q1 = moveMovesEnum q2 ∧
    swapQueuesMovesEnum q1 = swapQueuesMovesEnum q2 := by
  refine ⟨?_, ?_, ?_⟩
  · unfold swapMovesEnum
    rw [orderIndices_profile h]
  · unfold moveMovesEnum
    have hf : (fun oi => if is_last_in_queue q1 oi then []
          else (List.range q2.length).map fun m => (oi, (m, (q1.getD m []).length)))
        = (fun oi => if is_last_in_queue q2 oi then []
          else (List.range q2.length).map fun m => (oi, (m, (q2.getD m []).length))) := by
      funext oi
      rw [is_last_in_queue_profile h]
      have hg : (fun m => ((oi, (m, (q1.getD m []).length)) : (ℕ × ℕ) × ℕ × ℕ))
          = fun m => (oi, (m, (q2.getD m []).length)) := by
        funext m
        rw [length_profile_getD h]
      rw [hg]
    rw [orderIndices_profile h, length_profile_len h, hf]
  · unfold swapQueuesMovesEnum
    rw [length_profile_len h]

/-- Witness for C10: two schedules with profile `[1, 2]` but different order
contents produce identical enumerations. -/
theorem move_enumeration_depends_only_on_lengths_witness :
    ([[1], [2, 3]] : List (List ℕ)).map List.length =
      ([[9], [7, 8]] : List (List ℕ)).map List.length ∧
    swapMovesEnum [[1], [2, 3]] = swapMovesEnum [[9], [7, 8]] ∧
    moveMovesEnum [[1], [2, 3]] = moveMovesEnum [[9], [7, 8]] ∧
    swapQueuesMovesEnum [[1], [2, 3]] = swapQueuesMovesEnum [[9], [7, 8]] := by
  have h := move_enumeration_depends_only_on_lengths [[1], [2, 3]] [[9], [7, 8]]
    (by decide)
  exact ⟨by decide, h.1, h.2.1, h.2.2⟩

/-! ### Feasibility: the multiset of scheduled orders -/

/-- The multiset of all order ids occurring across the queues of a schedule. -/
def ordersOf (queues : List (List ℕ)) : Multiset ℕ := ↑queues.flatten

/-- Modelled from the spec: `Schedule.is_feasible` is not present in
src/schedule.py (spec §4.2 describes it): true iff the multiset of order ids
across all queues equals the full order-id set, each id exactly once. -/
def is_feasible (ps : PaintShop) (queues : List (List ℕ)) : Prop :=
  ordersOf queues = ↑ps.order_ids

lemma ms_set (l : List ℕ) (i x : ℕ) (hi : i < l.length) :
    (↑(l.set i x) : Multiset ℕ) + {l.getD i 0} = ↑l + {x} := by
  rw [List.set_eq_take_cons_drop x hi, List.getD_eq_getElem l 0 hi]
  conv_rhs => rw [← List.take_append_drop i l, List.drop_eq_getElem_cons hi]
  simp only [← Multiset.coe_add, ← Multiset.cons_coe, ← Multiset.singleton_add]
  abel

lemma ordersOf_set (qs : List (List ℕ)) (m : ℕ) (q' : List ℕ)
    (hm : m < qs.length) :
    ordersOf (qs.set m q') + ↑(qs.getD m []) = ordersOf qs + ↑q' := by
  induction qs generalizing m with
  | nil => simp at hm
  | cons q t ih =>
      cases m with
      | zero =>
          show ordersOf (q' :: t) + ↑((q :: t).getD 0 []) = ordersOf (q :: t) + ↑q'
          rw [List.getD_cons_zero]
          unfold ordersOf
          simp only [List.flatten_cons, ← Multiset.coe_add]
          abel
      | succ m =>
          show ordersOf (q :: t.set m q') + ↑((q :: t).getD (m+1) [])
            = ordersOf (q :: t) + ↑q'
          rw [List.getD_cons_succ]
          have hm' : m < t.length := by simpa using hm
          have hrec := ih m hm'
          unfold ordersOf at hrec ⊢
          simp only [List.flatten_cons, ← Multiset.coe_add]
          refine Multiset.ext.mpr fun c => ?_
          have hc := congrArg (Multiset.count c) hrec
          simp only [Multiset.count_add] at hc ⊢
          omega

lemma ordersOf_set2 (qs : List (List ℕ)) (m1 m2 : ℕ) (q1' q2' : List ℕ)
    (h1 : m1 < qs.length) (h2 : m2 < qs.length) (hne : m1 ≠ m2) :
    ordersOf ((qs.set m1 q1').set m2 q2') + ↑(qs.getD m1 []) + ↑(qs.getD m2 [])
      = ordersOf qs + ↑q1' + ↑q2' := by
  have e1 := ordersOf_set (qs.set m1 q1') m2 q2' (by simpa using h2)
  have e2 := ordersOf_set qs m1 q1' h1
  rw [getD_set_ne _ _ _ _ _ hne] at e1
  refine Multiset.ext.mpr fun c => ?_
  have hc1 := congrArg (Multiset.count c) e1
  have hc2 := congrArg (Multiset.count c) e2
  simp only [Multiset.count_add] at hc1 hc2 ⊢
  omega

lemma length_insertAt (l : List ℕ) (i x : ℕ) :
    (insertAt l i x).length = l.length + 1 := by
  unfold insertAt
  simp
  omega

lemma ms_insertAt (l : List ℕ) (i x : ℕ) :
    (↑(insertAt l i x) : Multiset ℕ) = ↑l + {x} := by
  unfold insertAt
  conv_rhs => rw [← List.take_append_drop i l]
  simp only [← Multiset.coe_add, Multiset.coe_singleton]
  abel

lemma ms_delAt (l : List ℕ) (i : ℕ) (hi : i < l.length) :
    (↑(delAt l i) : Multiset ℕ) + {l.getD i 0} = ↑l := by
  unfold delAt
  rw [List.getD_eq_getElem l 0 hi]
  conv_rhs => rw [← List.take_append_drop i l, List.drop_eq_getElem_cons hi]
  simp only [← Multiset.coe_add, ← Multiset.cons_coe, ← Multiset.singleton_add]
  abel

lemma insertAt_getD_self (l : List ℕ) (i x : ℕ) (hi : i ≤ l.length) :
    (insertAt l i x).getD i 0 = x := by
  unfold insertAt
  have h1 : (l.take i).length = i := by simp; omega
  simp only [List.getD, List.get?_eq_getElem?, List.append_assoc]
  rw [List.getElem?_append_right (by omega), h1]
  simp

lemma insertAt_getD_lt (l : List ℕ) (i x k : ℕ) (hk : k < i) (hi : i ≤ l.length) :
    (insertAt l i x).getD k 0 = l.getD k 0 := by
  unfold insertAt
  have h1 : (l.take i).length = i := by simp; omega
  simp only [List.getD, List.get?_eq_getElem?, List.append_assoc]
  rw [List.getElem?_append, if_pos (show k < (l.take i ).length by omega), List.getElem?_take, if_pos hk]

lemma insertAt_getD_gt (l : List ℕ) (i x k : ℕ) (hk : i < k) (hkl : k ≤ l.length) :
    (insertAt l i x).getD k 0 = l.getD (k - 1) 0 := by
  unfold insertAt
  have hi : i ≤ l.length := by omega
  have h1 : (l.take i).length = i := by simp; omega
  simp only [List.getD, List.get?_eq_getElem?, List.append_assoc]
  rw [List.getElem?_append_right (by omega), h1, List.singleton_append,
    List.getElem?_cons, if_neg (by omega), List.getElem?_drop]
  congr 2
  omega

lemma take_take_left (q : List ℕ) (a b : ℕ) (h : a ≤ b) :
    (q.take b).take a = q.take a := by
  rw [List.take_take, min_eq_left h]

lemma getSlice_take (q : List ℕ) (e1 e2 l1 : ℕ) (h : e2 ≤ l1) :
    getSlice (q.take l1) e1 e2 = getSlice q e1 e2 := by
  unfold getSlice
  rw [take_take_left _ _ _ h]

lemma ms_slice_decomp (l : List ℕ) (i j : ℕ) (hij : i ≤ j) :
    (↑l : Multiset ℕ) = ↑(l.take i) + ↑(getSlice l i j) + ↑(l.drop j) := by
  unfold getSlice
  conv_lhs => rw [← List.take_append_drop j l,
    ← List.take_append_drop i (l.take j), List.take_take, min_eq_left hij]
  simp only [← Multiset.coe_add]

lemma ms_setSlice (l : List ℕ) (i j : ℕ) (xs : List ℕ) (hij : i ≤ j) :
    (↑(setSlice l i j xs) : Multiset ℕ) = ↑(l.take i) + ↑xs + ↑(l.drop j) := by
  unfold setSlice
  rw [max_eq_right hij]
  simp only [← Multiset.coe_add]

/-- Same-machine batch swap: assigning the later slice `[l1, l2)` the content
of the earlier slice `[e1, e2)` and then the earlier slice the content of the
later one (both read from the original queue) preserves the queue multiset. -/
lemma ms_swapSlices (q : List ℕ) (e1 e2 l1 l2 : ℕ) (h1 : e1 ≤ e2) (h2 : e2 ≤ l1)
    (h3 : l1 ≤ l2) (h4 : l2 ≤ q.length) :
    (↑(setSlice (setSlice q l1 l2 (getSlice q e1 e2)) e1 e2 (getSlice q l1 l2))
      : Multiset ℕ) = ↑q := by
  have he1 : e1 ≤ l1 := le_trans h1 h2
  have hlen1 : (q.take l1).length = l1 := by simp; omega
  have hQ1 : setSlice q l1 l2 (getSlice q e1 e2)
      = (q.take l1 ++ getSlice q e1 e2) ++ q.drop l2 := by
    unfold setSlice
    rw [max_eq_right h3]
  rw [hQ1]
  unfold setSlice
  rw [max_eq_right h1]
  rw [List.take_append_of_le_length (by simp [hlen1]; omega),
    List.take_append_of_le_length (by omega), take_take_left q e1 l1 he1,
    List.drop_append_of_le_length (by simp [hlen1]; omega),
    List.drop_append_of_le_length (by omega)]
  have dq := ms_slice_decomp q l1 l2 h3
  have dtl := ms_slice_decomp (q.take l1) e1 e2 h1
  rw [getSlice_take q e1 e2 l1 h2, take_take_left q e1 l1 he1] at dtl
  refine Multiset.ext.mpr fun c => ?_
  have hdq := congrArg (Multiset.count c) dq
  have hdtl := congrArg (Multiset.count c) dtl
  simp only [← Multiset.coe_add, List.append_assoc]
  simp only [Multiset.count_add] at hdq hdtl ⊢
  omega

/-- Cross-machine batch swap: exchanging the contents of a slice of one queue
with a slice of another queue preserves the combined multiset. -/
lemma ms_swapSlices_cross (qa qb : List ℕ) (a1 a2 b1 b2 : ℕ)
    (ha : a1 ≤ a2) (hb : b1 ≤ b2) :
    (↑(setSlice qa a1 a2 (getSlice qb b1 b2)) : Multiset ℕ)
      + ↑(setSlice qb b1 b2 (getSlice qa a1 a2)) = ↑qa + ↑qb := by
  rw [ms_setSlice _ _ _ _ ha, ms_setSlice _ _ _ _ hb]
  have da := ms_slice_decomp qa a1 a2 ha
  have db := ms_slice_decomp qb b1 b2 hb
  refine Multiset.ext.mpr fun c => ?_
  have hda := congrArg (Multiset.count c) da
  have hdb := congrArg (Multiset.count c) db
  simp only [Multiset.count_add] at hda hdb ⊢
  omega

/-! ### Batch discovery (`SwapBatchMove.get_batches`) and its enumeration -/

/-- The inner while-loop of `SwapBatchMove.get_batches`: starting from
`batch_len = bl`, keep growing the batch while the next queue index exists
and has zero setup time from the previous order. -/
def batchLen (ps : PaintShop) (queue : List ℕ) (qi : ℕ) (bl : ℕ) : ℕ :=
  if h : qi + bl < queue.length ∧
      ps.get_setup_time (some (queue.getD (qi + bl - 1) 0)) (queue.getD (qi + bl) 0)
        = 0 then
    batchLen ps queue qi (bl + 1)
  else bl
termination_by queue.length - (qi + bl)
decreasing_by
  simp_wf
  omega

lemma batchLen_ge (ps : PaintShop) (queue : List ℕ) (qi : ℕ) :
    ∀ d bl, queue.length - (qi + bl) ≤ d → bl ≤ batchLen ps queue qi bl := by
  intro d
  induction d with
  | zero =>
      intro bl hd
      rw [batchLen]
      split
      · rename_i h
        omega
      · exact le_refl bl
  | succ d ih =>
      intro bl hd
      rw [batchLen]
      split
      · rename_i h
        have := ih (bl + 1) (by omega)
        omega
      · exact le_refl bl

lemma batchLen_le (ps : PaintShop) (queue : List ℕ) (qi : ℕ) :
    ∀ d bl, queue.length - (qi + bl) ≤ d → qi + bl ≤ queue.length →
      qi + batchLen ps queue qi bl ≤ queue.length := by
  intro d
  induction d with
  | zero =>
      intro bl hd hle
      rw [batchLen]
      split
      · rename_i h
        omega
      · exact hle
  | succ d ih =>
      intro bl hd hle
      rw [batchLen]
      split
      · rename_i h
        exact ih (bl + 1) (by omega) (by omega)
      · exact hle

/-- The scan of `SwapBatchMove.get_batches` over one queue: batches are the
`(machine, (start, stop))` runs of length ≥ 2 with zero internal setup. -/
def batchesFrom (ps : PaintShop) (mi : ℕ) (queue : List ℕ) (qi : ℕ) :
    List (ℕ × ℕ × ℕ) :=
  if h : qi + 1 < queue.length then
    if batchLen ps queue qi 1 = 1 then batchesFrom ps mi queue (qi + 1)
    else (mi, qi, qi + batchLen ps queue qi 1) ::
      batchesFrom ps mi queue (qi + batchLen ps queue qi 1)
  else []
termination_by queue.length - qi
decreasing_by
  · simp_wf
    omega
  · simp_wf
    have h1 := batchLen_ge ps queue qi (queue.length) 1 (by omega)
    omega

lemma batchesFrom_valid (ps : PaintShop) (mi : ℕ) (queue : List ℕ) :
    ∀ d qi, queue.length - qi ≤ d →
      ∀ b ∈ batchesFrom ps mi queue qi,
        b.1 = mi ∧ qi ≤ b.2.1 ∧ b.2.1 + 2 ≤ b.2.2 ∧ b.2.2 ≤ queue.length := by
  intro d
  induction d with
  | zero =>
      intro qi hd b hb
      rw [batchesFrom] at hb
      split at hb
      · rename_i h
        omega
      · simp at hb
  | succ d ih =>
      intro qi hd b hb
      rw [batchesFrom] at hb
      split at hb
      · rename_i h
        have hge := batchLen_ge ps queue qi (queue.length) 1 (by omega)
        have hle := batchLen_le ps queue qi (queue.length) 1 (by omega) (by omega)
        split at hb
        · rename_i hone
          have := ih (qi + 1) (by omega) b hb
          exact ⟨this.1, by omega, this.2.2⟩
        · rename_i hone
          rcases List.mem_cons.mp hb with rfl | hb
          · refine ⟨rfl, ?_, ?_, ?_⟩
            · show qi ≤ qi
              omega
            · show qi + 2 ≤ qi + batchLen ps queue qi 1
              omega
            · show qi + batchLen ps queue qi 1 ≤ queue.length
              omega
          · have := ih (qi + batchLen ps queue qi 1) (by omega) b hb
            exact ⟨this.1, by omega, this.2.2⟩
      · simp at hb

lemma batchesFrom_sorted (ps : PaintShop) (mi : ℕ) (queue : List ℕ) :
    ∀ d qi, queue.length - qi ≤ d →
      (batchesFrom ps mi queue qi).Pairwise fun b1 b2 => b1.2.2 ≤ b2.2.1 := by
  intro d
  induction d with
  | zero =>
      intro qi hd
      rw [batchesFrom]
      split
      · rename_i h
        omega
      · exact List.Pairwise.nil
  | succ d ih =>
      intro qi hd
      rw [batchesFrom]
      split
      · rename_i h
        have hge := batchLen_ge ps queue qi (queue.length) 1 (by omega)
        split
        · rename_i hone
          exact ih (qi + 1) (by omega)
        · rename_i hone
          refine List.Pairwise.cons ?_ (ih (qi + batchLen ps queue qi 1) (by omega))
          intro b hb
          have := batchesFrom_valid ps mi queue (queue.length)
            (qi + batchLen ps queue qi 1) (by omega) b hb
          exact this.2.1
      · exact List.Pairwise.nil

/-- `SwapBatchMove.get_batches`: scan every machine's queue in machine order. -/
def getBatches (ps : PaintShop) (queues : List (List ℕ)) : List (ℕ × ℕ × ℕ) :=
  (List.range queues.length).flatMap fun mi => batchesFrom ps mi (queues.getD mi []) 0

/-- `SwapBatchMove.get_moves`: all 2-combinations of the batches. -/
def swapBatchMovesEnum (ps : PaintShop) (queues : List (List ℕ)) :
    List ((ℕ × ℕ × ℕ) × (ℕ × ℕ × ℕ)) :=
  pairsOf (getBatches ps queues)

lemma pairsOf_mem {α : Type} : ∀ {l : List α} {p : α × α}, p ∈ pairsOf l →
    p.1 ∈ l ∧ p.2 ∈ l := by
  intro l
  induction l with
  | nil => intro p hp; simp [pairsOf] at hp
  | cons x xs ih =>
      intro p hp
      simp only [pairsOf, List.mem_append, List.mem_map] at hp
      rcases hp with ⟨y, hy, hxy⟩ | hp
      · subst hxy
        exact ⟨List.mem_cons_self x xs, List.mem_cons_of_mem x hy⟩
      · exact ⟨List.mem_cons_of_mem x (ih hp).1, List.mem_cons_of_mem x (ih hp).2⟩

lemma pairsOf_rel {α : Type} {R : α → α → Prop} : ∀ {l : List α},
    l.Pairwise R → ∀ {p : α × α}, p ∈ pairsOf l → R p.1 p.2 := by
  intro l
  induction l with
  | nil => intro _ p hp; simp [pairsOf] at hp
  | cons x xs ih =>
      intro hpw p hp
      have hhead := (List.pairwise_cons.mp hpw).1
      have htail := (List.pairwise_cons.mp hpw).2
      simp only [pairsOf, List.mem_append, List.mem_map] at hp
      rcases hp with ⟨y, hy, hxy⟩ | hp
      · subst hxy
        exact hhead y hy
      · exact ih htail hp

lemma pairwise_bind {α β : Type} {l : List α} {f : α → List β} {R : β → β → Prop}
    (hin : ∀ a ∈ l, (f a).Pairwise R)
    (hcross : l.Pairwise fun a b => ∀ x ∈ f a, ∀ y ∈ f b, R x y) :
    (l.flatMap f).Pairwise R := by
  induction l with
  | nil => simp [List.Pairwise.nil]
  | cons a t ih =>
      rw [List.flatMap_cons, List.pairwise_append]
      refine ⟨hin a (List.mem_cons_self a t),
        ih (fun b hb => hin b (List.mem_cons_of_mem a hb))
          ((List.pairwise_cons.mp hcross).2), ?_⟩
      intro x hx y hy
      rcases List.mem_flatMap.mp hy with ⟨b, hb, hyb⟩
      exact (List.pairwise_cons.mp hcross).1 b hb x hx y hyb

lemma getBatches_valid (ps : PaintShop) (queues : List (List ℕ)) :
    ∀ b ∈ getBatches ps queues,
      b.1 < queues.length ∧ b.2.1 + 2 ≤ b.2.2 ∧
        b.2.2 ≤ (queues.getD b.1 []).length := by
  intro b hb
  rcases List.mem_flatMap.mp hb with ⟨mi, hmi, hbm⟩
  have hmi' : mi < queues.length := List.mem_range.mp hmi
  have := batchesFrom_valid ps mi (queues.getD mi []) (queues.getD mi []).length
    0 (by omega) b hbm
  rcases this with ⟨h1, _, h3, h4⟩
  subst h1
  exact ⟨hmi', h3, h4⟩

lemma getBatches_pairwise (ps : PaintShop) (queues : List (List ℕ)) :
    (getBatches ps queues).Pairwise fun b1 b2 => b1.1 = b2.1 → b1.2.2 ≤ b2.2.1 := by
  unfold getBatches
  refine pairwise_bind ?_ ?_
  · intro mi _
    refine List.Pairwise.imp ?_
      (batchesFrom_sorted ps mi (queues.getD mi []) (queues.getD mi []).length 0
        (by omega))
    intro b1 b2 h _
    exact h
  · refine List.Pairwise.imp ?_ (List.pairwise_lt_range queues.length)
    intro m1 m2 hlt x hx y hy heq
    have hx1 := (batchesFrom_valid ps m1 (queues.getD m1 [])
      (queues.getD m1 []).length 0 (by omega) x hx).1
    have hy1 := (batchesFrom_valid ps m2 (queues.getD m2 [])
      (queues.getD m2 []).length 0 (by omega) y hy).1
    omega

/-! ### Feasibility preservation of the four move applications -/

lemma mem_orderIndices {queues : List (List ℕ)} {p : ℕ × ℕ} :
    p ∈ orderIndices queues ↔
      p.1 < queues.length ∧ p.2 < (queues.getD p.1 []).length := by
  unfold orderIndices
  simp only [List.mem_flatMap, List.mem_map, List.mem_range]
  constructor
  · rintro ⟨m, hm, qi, hqi, rfl⟩
    exact ⟨hm, hqi⟩
  · rintro ⟨h1, h2⟩
    exact ⟨p.1, h1, p.2, h2, rfl⟩

/-- Exchanging two in-range positions of a queue (both values read from the
original queue) preserves the queue's multiset. -/
lemma ms_swap_queue (q : List ℕ) (i j : ℕ) (hi : i < q.length)
    (hj : j < q.length) :
    (↑((q.set j (q.getD i 0)).set i (q.getD j 0)) : Multiset ℕ) = ↑q := by
  have hgd : (q.set j (q.getD i 0)).getD i 0 = q.getD i 0 := by
    rcases eq_or_ne j i with rfl | hne
    · exact getD_set_self _ _ _ _ hi
    · exact getD_set_ne _ _ _ _ _ hne
  have e1 := ms_set (q.set j (q.getD i 0)) i (q.getD j 0) (by simpa using hi)
  have e2 := ms_set q j (q.getD i 0) hj
  rw [hgd] at e1
  refine Multiset.ext.mpr fun c => ?_
  have hc1 := congrArg (Multiset.count c) e1
  have hc2 := congrArg (Multiset.count c) e2
  simp only [Multiset.count_add] at hc1 hc2 ⊢
  omega

/-- `SwapMove.get_moved` preserves the schedule's order multiset. -/
lemma ordersOf_swapMoved (queues : List (List ℕ)) (a b : ℕ × ℕ)
    (ha1 : a.1 < queues.length) (ha2 : a.2 < (queues.getD a.1 []).length)
    (hb1 : b.1 < queues.length) (hb2 : b.2 < (queues.getD b.1 []).length) :
    ordersOf (swapMoved a b queues) = ordersOf queues := by
  obtain ⟨ma, ia⟩ := a
  obtain ⟨mb, ib⟩ := b
  simp only at ha1 ha2 hb1 hb2
  unfold swapMoved setItem2 getItem2
  simp only
  rcases eq_or_ne ma mb with rfl | hm
  · rw [getD_set_self _ _ _ _ hb1, List.set_set]
    have hq := ms_swap_queue (queues.getD ma []) ia ib ha2 hb2
    have e1 := ordersOf_set queues ma
      (((queues.getD ma []).set ib ((queues.getD ma []).getD ia 0)).set ia
        ((queues.getD ma []).getD ib 0)) ha1
    refine Multiset.ext.mpr fun c => ?_
    have hc1 := congrArg (Multiset.count c) e1
    have hcq := congrArg (Multiset.count c) hq
    simp only [Multiset.count_add] at hc1 hcq ⊢
    omega
  · rw [getD_set_ne _ _ _ _ _ (Ne.symm hm)]
    have e0 := ordersOf_set2 queues mb ma
      ((queues.getD mb []).set ib ((queues.getD ma []).getD ia 0))
      ((queues.getD ma []).set ia ((queues.getD mb []).getD ib 0))
      hb1 ha1 (Ne.symm hm)
    have ea := ms_set (queues.getD ma []) ia ((queues.getD mb []).getD ib 0) ha2
    have eb := ms_set (queues.getD mb []) ib ((queues.getD ma []).getD ia 0) hb2
    refine Multiset.ext.mpr fun c => ?_
    have hc0 := congrArg (Multiset.count c) e0
    have hca := congrArg (Multiset.count c) ea
    have hcb := congrArg (Multiset.count c) eb
    simp only [Multiset.count_add] at hc0 hca hcb ⊢
    omega

/-- `MoveMove.get_moved` preserves the schedule's order multiset.  The target
index may be one past the end of the target queue (moves to the end of a
queue are also enumerated). -/
lemma ordersOf_moveMoved (queues : List (List ℕ)) (a b : ℕ × ℕ)
    (ha1 : a.1 < queues.length) (ha2 : a.2 < (queues.getD a.1 []).length)
    (hb1 : b.1 < queues.length) (hb2 : b.2 ≤ (queues.getD b.1 []).length) :
    ordersOf (moveMoved a b queues) = ordersOf queues := by
  obtain ⟨ma, ia⟩ := a
  obtain ⟨mb, ib⟩ := b
  simp only at ha1 ha2 hb1 hb2
  unfold moveMoved getItem2
  simp only
  rcases eq_or_ne ma mb with rfl | hm
  · -- same machine
    set qm := queues.getD ma [] with hqm
    set x := qm.getD ia 0 with hx
    have hins : (queues.set ma (insertAt qm ib x)).getD ma [] = insertAt qm ib x :=
      getD_set_self _ _ _ _ ha1
    split_ifs with hcond
    · have hlt : ib < ia := hcond.2
      rw [hins, List.set_set]
      have hdel := ms_delAt (insertAt qm ib x) (ia + 1)
        (by rw [length_insertAt]; omega)
      rw [insertAt_getD_gt qm ib x (ia + 1) (by omega) (by omega)] at hdel
      have hia1 : ia + 1 - 1 = ia := by omega
      rw [hia1, ← hx] at hdel
      have hins2 := ms_insertAt qm ib x
      have hset := ordersOf_set queues ma (delAt (insertAt qm ib x) (ia + 1)) ha1
      rw [← hqm] at hset
      refine Multiset.ext.mpr fun c => ?_
      have hc1 := congrArg (Multiset.count c) hdel
      have hc2 := congrArg (Multiset.count c) hins2
      have hc3 := congrArg (Multiset.count c) hset
      simp only [Multiset.count_add] at hc1 hc2 hc3 ⊢
      omega
    · have hge : ia ≤ ib := by
        rcases Nat.lt_or_ge ia ib with h | h
        · omega
        · rcases Nat.lt_or_ge ib ia with h2 | h2
          · exact absurd ⟨rfl, h2⟩ hcond
          · omega
      rw [hins, List.set_set]
      have hgd : (insertAt qm ib x).getD ia 0 = x := by
        rcases eq_or_ne ia ib with rfl | hne
        · exact insertAt_getD_self qm ia x hb2
        · exact (insertAt_getD_lt qm ib x ia (by omega) hb2).trans hx.symm
      have hdel := ms_delAt (insertAt qm ib x) ia (by rw [length_insertAt]; omega)
      rw [hgd] at hdel
      have hins2 := ms_insertAt qm ib x
      have hset := ordersOf_set queues ma (delAt (insertAt qm ib x) ia) ha1
      rw [← hqm] at hset
      refine Multiset.ext.mpr fun c => ?_
      have hc1 := congrArg (Multiset.count c) hdel
      have hc2 := congrArg (Multiset.count c) hins2
      have hc3 := congrArg (Multiset.count c) hset
      simp only [Multiset.count_add] at hc1 hc2 hc3 ⊢
      omega
  · -- different machines
    rw [if_neg (by intro hcc; exact hm hcc.1)]
    set qa := queues.getD ma [] with hqa
    set qb := queues.getD mb [] with hqb
    set x := qa.getD ia 0 with hx
    rw [getD_set_ne _ _ _ _ _ (Ne.symm hm), ← hqa]
    have e0 := ordersOf_set2 queues mb ma (insertAt qb ib x) (delAt qa ia)
      hb1 ha1 (Ne.symm hm)
    rw [← hqa, ← hqb] at e0
    have hins2 := ms_insertAt qb ib x
    have hdel := ms_delAt qa ia ha2
    rw [← hx] at hdel
    refine Multiset.ext.mpr fun c => ?_
    have hc0 := congrArg (Multiset.count c) e0
    have hc1 := congrArg (Multiset.count c) hins2
    have hc2 := congrArg (Multiset.count c) hdel
    simp only [Multiset.count_add] at hc0 hc1 hc2 ⊢
    omega

/-- `SwapQueuesMove.get_moved` preserves the schedule's order multiset. -/
lemma ordersOf_swapQueuesMoved (queues : List (List ℕ)) (ma mb : ℕ)
    (ha : ma < queues.length) (hb : mb < queues.length) (hne : ma ≠ mb) :
    ordersOf (swapQueuesMoved ma mb queues) = ordersOf queues := by
  unfold swapQueuesMoved
  have e0 := ordersOf_set2 queues ma mb (queues.getD mb []) (queues.getD ma [])
    ha hb hne
  refine Multiset.ext.mpr fun c => ?_
  have hc0 := congrArg (Multiset.count c) e0
  simp only [Multiset.count_add] at hc0 ⊢
  omega

/-- `SwapBatchMove.get_moved` preserves the schedule's order multiset, for any
pair of batches as enumerated (valid, and in scan order when on the same
machine). -/
lemma ordersOf_swapBatchMoved (queues : List (List ℕ)) (b1 b2 : ℕ × ℕ × ℕ)
    (h1m : b1.1 < queues.length) (h2m : b2.1 < queues.length)
    (h1s : b1.2.1 + 2 ≤ b1.2.2) (h1e : b1.2.2 ≤ (queues.getD b1.1 []).length)
    (h2s : b2.2.1 + 2 ≤ b2.2.2) (h2e : b2.2.2 ≤ (queues.getD b2.1 []).length)
    (horder : b1.1 = b2.1 → b1.2.2 ≤ b2.2.1) :
    ordersOf (swapBatchMoved b1.1 b1.2 b2.1 b2.2 queues) = ordersOf queues := by
  obtain ⟨m1, s1a, s1b⟩ := b1
  obtain ⟨m2, s2a, s2b⟩ := b2
  simp only at h1m h2m h1s h1e h2s h2e horder
  unfold swapBatchMoved
  rcases eq_or_ne m1 m2 with rfl | hm
  · rw [if_pos rfl]
    have hord : s1b ≤ s2a := horder rfl
    set q := queues.getD m1 [] with hq
    have hcond : ¬ (min s2a q.length < min s1a q.length) := by
      have : min s2a q.length = s2a := by omega
      have : min s1a q.length = s1a := by omega
      omega
    rw [if_neg hcond]
    have hswap := ms_swapSlices q s1a s1b s2a s2b (by omega) (by omega)
      (by omega) (by omega)
    have hset := ordersOf_set queues m1
      (setSlice (setSlice q s2a s2b (getSlice q s1a s1b)) s1a s1b
        (getSlice q s2a s2b)) h1m
    rw [← hq] at hset
    refine Multiset.ext.mpr fun c => ?_
    have hc1 := congrArg (Multiset.count c) hswap
    have hc2 := congrArg (Multiset.count c) hset
    simp only [Multiset.count_add] at hc1 hc2 ⊢
    omega
  · rw [if_neg hm]
    set qa := queues.getD m1 [] with hqa
    set qb := queues.getD m2 [] with hqb
    have e0 := ordersOf_set2 queues m1 m2
      (setSlice qa s1a s1b (getSlice qb s2a s2b))
      (setSlice qb s2a s2b (getSlice qa s1a s1b)) h1m h2m hm
    rw [← hqa, ← hqb] at e0
    have hcr := ms_swapSlices_cross qa qb s1a s1b s2a s2b (by omega) (by omega)
    refine Multiset.ext.mpr fun c => ?_
    have hc0 := congrArg (Multiset.count c) e0
    have hc1 := congrArg (Multiset.count c) hcr
    simp only [Multiset.count_add] at hc0 hc1 ⊢
    omega

lemma mem_moveMovesEnum_valid {queues : List (List ℕ)} {mv : (ℕ × ℕ) × ℕ × ℕ}
    (hmv : mv ∈ moveMovesEnum queues) :
    mv.1.1 < queues.length ∧ mv.1.2 < (queues.getD mv.1.1 []).length ∧
      mv.2.1 < queues.length ∧ mv.2.2 ≤ (queues.getD mv.2.1 []).length := by
  simp only [moveMovesEnum] at hmv
  have hmv1 := (List.mem_filter.mp hmv).1
  simp only [List.mem_append] at hmv1
  rcases hmv1 with (h | h) | h
  · have hm := pairsOf_mem h
    have h1 := mem_orderIndices.mp hm.1
    have h2 := mem_orderIndices.mp hm.2
    exact ⟨h1.1, h1.2, h2.1, le_of_lt h2.2⟩
  · rcases List.mem_map.mp h with ⟨p, hp, hpe⟩
    have hm := pairsOf_mem hp
    have h1 := mem_orderIndices.mp hm.1
    have h2 := mem_orderIndices.mp hm.2
    cases hpe
    exact ⟨h2.1, h2.2, h1.1, le_of_lt h1.2⟩
  · rcases List.mem_flatMap.mp h with ⟨oi, hoi, hmem⟩
    by_cases hl : is_last_in_queue queues oi
    · rw [if_pos hl] at hmem
      simp at hmem
    · rw [if_neg hl] at hmem
      rcases List.mem_map.mp hmem with ⟨m, hm, hme⟩
      have hoi' := mem_orderIndices.mp hoi
      cases hme
      exact ⟨hoi'.1, hoi'.2, List.mem_range.mp hm, le_refl _⟩

/-- C2: starting from a feasible schedule (every order id occurs exactly once
across the queues), every enumerated `SwapMove`, `MoveMove` (relocate),
`SwapQueuesMove` and `SwapBatchMove` produces a schedule that is again
feasible: no order id is dropped and none is duplicated. -/
theorem moves_preserve_feasibility (ps : PaintShop) (queues : List (List ℕ))
    (hfeas : is_feasible ps queues) :
    (∀ mv ∈ swapMovesEnum queues, is_feasible ps (swapMoved mv.1 mv.2 queues)) ∧
    (∀ mv ∈ moveMovesEnum queues, is_feasible ps (moveMoved mv.1 mv.2 queues)) ∧
    (∀ mv ∈ swapQueuesMovesEnum queues,
      is_feasible ps (swapQueuesMoved mv.1 mv.2 queues)) ∧
    (∀ mv ∈ swapBatchMovesEnum ps queues,
      is_feasible ps (swapBatchMoved mv.1.1 mv.1.2 mv.2.1 mv.2.2 queues)) := by
  unfold is_feasible at hfeas ⊢
  refine ⟨?_, ?_, ?_, ?_⟩
  · intro mv hmv
    have hm := pairsOf_mem hmv
    have h1 := mem_orderIndices.mp hm.1
    have h2 := mem_orderIndices.mp hm.2
    rw [ordersOf_swapMoved queues mv.1 mv.2 h1.1 h1.2 h2.1 h2.2, hfeas]
  · intro mv hmv
    have hv := mem_moveMovesEnum_valid hmv
    rw [ordersOf_moveMoved queues mv.1 mv.2 hv.1 hv.2.1 hv.2.2.1 hv.2.2.2, hfeas]
  · intro mv hmv
    have hm := pairsOf_mem hmv
    have hlt : mv.1 < mv.2 :=
      pairsOf_rel (List.pairwise_lt_range queues.length) hmv
    rw [ordersOf_swapQueuesMoved queues mv.1 mv.2
      (List.mem_range.mp hm.1) (List.mem_range.mp hm.2) (Nat.ne_of_lt hlt), hfeas]
  · intro mv hmv
    have hv1 := getBatches_valid ps queues mv.1 (pairsOf_mem hmv).1
    have hv2 := getBatches_valid ps queues mv.2 (pairsOf_mem hmv).2
    have hord := pairsOf_rel (getBatches_pairwise ps queues) hmv
    rw [ordersOf_swapBatchMoved queues mv.1 mv.2 hv1.1 hv2.1 hv1.2.1 hv1.2.2
      hv2.2.1 hv2.2.2 hord, hfeas]

/-- Witness for C2: the feasible one-machine schedule `[[0, 1, 2]]` of the
concrete instance. -/
theorem moves_preserve_feasibility_witness :
    is_feasible PS1 [[0, 1, 2]] ∧
    ((∀ mv ∈ swapMovesEnum [[0, 1, 2]],
        is_feasible PS1 (swapMoved mv.1 mv.2 [[0, 1, 2]])) ∧
      (∀ mv ∈ moveMovesEnum [[0, 1, 2]],
        is_feasible PS1 (moveMoved mv.1 mv.2 [[0, 1, 2]])) ∧
      (∀ mv ∈ swapQueuesMovesEnum [[0, 1, 2]],
        is_feasible PS1 (swapQueuesMoved mv.1 mv.2 [[0, 1, 2]])) ∧
      (∀ mv ∈ swapBatchMovesEnum PS1 [[0, 1, 2]],
        is_feasible PS1 (swapBatchMoved mv.1.1 mv.1.2 mv.2.1 mv.2.2 [[0, 1, 2]]))) := by
  have h : is_feasible PS1 [[0, 1, 2]] := rfl
  exact ⟨h, moves_preserve_feasibility PS1 [[0, 1, 2]] h⟩

/-! ### Move-selection strategies (moveSelectionStrategy.py) -/

/-- Python runtime errors raised by the embedded code paths. -/
inductive PyErr where
  | indexError
  | typeError
deriving DecidableEq

deriving instance DecidableEq for Except

/-- `First.try_get_move` with an acceptance predicate: walk the move list in
order, apply each move, return the first `(move, moved_schedule)` whose
result satisfies the predicate; `(None, None)` — modelled as `none` — when the
loop falls through. -/
def firstTryGetMove {M S : Type} (moves : List M) (getMoved : M → S)
    (crit : S → Bool) : Option (M × S) :=
  match moves with
  | [] => none
  | m :: rest =>
      let s := getMoved m
      if crit s then some (m, s) else firstTryGetMove rest getMoved crit

/-- `Random.try_get_move` with an acceptance predicate: identical loop to
`First` over the shuffled move list (the shuffle outcome is the `shuffled`
argument). -/
def randomTryGetMove {M S : Type} (shuffled : List M) (getMoved : M → S)
    (crit : S → Bool) : Option (M × S) :=
  match shuffled with
  | [] => none
  | m :: rest =>
      let s := getMoved m
      if crit s then some (m, s) else randomTryGetMove rest getMoved crit

/-- `Best.try_get_move`: build all `(move, moved)` pairs, filter by the
predicate when given, then take `sorted(moves, key=cost)[0]` — indexing an
empty list raises `IndexError`.  Python's `sorted` is a stable sort by the
key; it is modelled by the (stable) insertion sort on the cost order. -/
def bestTryGetMove {M S : Type} (moves : List M) (getMoved : M → S)
    (crit : Option (S → Bool)) (cost : S → ℚ) : Except PyErr (M × S) :=
  let pairs := moves.map fun m => (m, getMoved m)
  let filtered :=
    match crit with
    | none => pairs
    | some c => pairs.filter fun p => c p.2
  match List.insertionSort (fun p q => cost p.2 ≤ cost q.2) filtered with
  | [] => Except.error PyErr.indexError
  | p :: _ => Except.ok p

/-- C6 (code bug): when no move satisfies the acceptance predicate, `First`
and `Random` do return `(None, None)`, but `Best` raises `IndexError` from
`sorted([...])[0]` on the empty filtered list instead of returning
`(None, None)` — both with a rejected non-empty neighborhood and with an
empty neighborhood.  Shown at a concrete failing input (two moves, predicate
rejecting everything; and the empty move list). -/
theorem best_strategy_raises_when_nothing_accepted :
    firstTryGetMove [0, 1] (fun m => m) (fun _ => false) = none ∧
    randomTryGetMove [1, 0] (fun m => m) (fun _ => false) = none ∧
    bestTryGetMove [0, 1] (fun m => m) (some fun _ => false) (fun s => (s : ℚ))
      = Except.error PyErr.indexError ∧
    bestTryGetMove ([] : List ℕ) (fun m => m) (some fun _ => false)
      (fun s => (s : ℚ)) = Except.error PyErr.indexError := by
  refine ⟨rfl, rfl, rfl, rfl⟩

/-! ### Greedy descent (`Basic.run`, heuristics_improvement.py) -/

/-- The observable state of a `HeuristicRunData` during `Basic.run`: the last
schedule, the best schedule, and the cost column of the iteration log (the
initial entry records the initial cost). -/
structure RunState (S : Type) where
  last : S
  best : S
  costs : List ℚ

/-- `Basic.run`: each iteration asks the strategy for a move whose result
satisfies `must_improve` (strictly cheaper than `run_data.last`); `None`
terminates the loop; otherwise `run_data.last` becomes the moved schedule,
its cost is appended to the iteration log, and `run_data.best` is set to
`run_data.last` unconditionally.  The strategy is the `tryMove` parameter
(returning the moved schedule), the schedule's cached total cost (the `cost`
attribute read by the loop) is the `cost` parameter, and the fuel bounds the
iteration count of the shallow embedding. -/
def basicRun {S : Type} (cost : S → ℚ) (tryMove : S → (S → Bool) → Option S) :
    ℕ → RunState S → RunState S
  | 0, rd => rd
  | fuel + 1, rd =>
      match tryMove rd.last (fun s => decide (cost s < cost rd.last)) with
      | none => rd
      | some moved =>
          basicRun cost tryMove fuel
            { last := moved, best := moved, costs := rd.costs ++ [cost moved] }

lemma basicRun_invariant {S : Type} (cost : S → ℚ)
    (tryMove : S → (S → Bool) → Option S)
    (hsound : ∀ s p s', tryMove s p = some s' → p s' = true) :
    ∀ fuel rd, rd.best = rd.last → rd.costs.getLast? = some (cost rd.last) →
      rd.costs.Chain' (fun x y => y ≤ x) →
      (basicRun cost tryMove fuel rd).best = (basicRun cost tryMove fuel rd).last ∧
        (basicRun cost tryMove fuel rd).costs.getLast?
          = some (cost (basicRun cost tryMove fuel rd).last) ∧
        (basicRun cost tryMove fuel rd).costs.Chain' fun x y => y ≤ x := by
  intro fuel
  induction fuel with
  | zero => intro rd h1 h2 h3; exact ⟨h1, h2, h3⟩
  | succ fuel ih =>
      intro rd h1 h2 h3
      rw [basicRun]
      cases hmv : tryMove rd.last fun s => decide (cost s < cost rd.last) with
      | none => exact ⟨h1, h2, h3⟩
      | some moved =>
          have himp : cost moved < cost rd.last := by
            have := hsound _ _ _ hmv
            simpa using this
          refine ih _ rfl (by simp) ?_
          rw [List.chain'_append]
          refine ⟨h3, List.chain'_singleton _, ?_⟩
          intro x hx y hy
          rw [h2] at hx
          simp only [Option.mem_def, Option.some_inj] at hx
          simp only [List.head?_cons, Option.mem_def, Option.some_inj] at hy
          subst hx
          subst hy
          exact le_of_lt himp

/-- C7: in every greedy-descent (`Basic`) run — for any strategy whose
returned schedule satisfies the acceptance predicate it was given — the cost
column of the iteration log is non-increasing (each committed iteration's
cost is at most the previous one's), and the reported best schedule equals
the reported last schedule at every point, in particular at termination. -/
theorem basic_run_monotone_best_eq_last {S : Type} (cost : S → ℚ)
    (tryMove : S → (S → Bool) → Option S)
    (hsound : ∀ s p s', tryMove s p = some s' → p s' = true)
    (fuel : ℕ) (s0 : S) :
    ((basicRun cost tryMove fuel ⟨s0, s0, [cost s0]⟩).costs.Chain'
        fun x y => y ≤ x) ∧
      (basicRun cost tryMove fuel ⟨s0, s0, [cost s0]⟩).best
        = (basicRun cost tryMove fuel ⟨s0, s0, [cost s0]⟩).last := by
  have h := basicRun_invariant cost tryMove hsound fuel ⟨s0, s0, [cost s0]⟩
    rfl (by simp) (List.chain'_singleton _)
  exact ⟨h.2.2, h.1⟩

/-- Witness for C7 at a concrete strategy (one that never finds a move),
fuel 5 and initial cost 3. -/
theorem basic_run_monotone_best_eq_last_witness :
    ((basicRun (fun s : ℚ => s) (fun _ _ => none) 5 ⟨3, 3, [3]⟩).costs.Chain'
        fun x y => y ≤ x) ∧
      (basicRun (fun s : ℚ => s) (fun _ _ => none) 5 ⟨3, 3, [3]⟩).best
        = (basicRun (fun s : ℚ => s) (fun _ _ => none) 5 ⟨3, 3, [3]⟩).last :=
  basic_run_monotone_best_eq_last (fun s : ℚ => s) (fun _ _ => none)
    (fun s p s' h => by cases h) 5 3

/-! ### Tabu search bounded window (`Taboo.run`, heuristics_improvement.py) -/

/-- Subscripting (slicing included) a Python `set` object: `set` defines no
`__getitem__`, so any `taboo_set[...]` raises `TypeError`. -/
def pySetSlice (s : Finset ℕ) (start stop step : Option ℤ) :
    Except PyErr (Finset ℕ) :=
  Except.error PyErr.typeError

/-- The bounded-window acceptance predicate of `Taboo.run` when `taboo_len`
is set: `hash(schedule) not in taboo_set[-self.taboo_len::]`, where
`taboo_set` is a builtin `set` (schedule hashes are modelled as `ℕ`).
Evaluating the slice is the first step. -/
def criteriaNontabooBounded (taboo_len : ℕ) (taboo_set : Finset ℕ) (h : ℕ) :
    Except PyErr Bool := do
  let window ← pySetSlice taboo_set (some (-(taboo_len : ℤ))) none none
  pure (decide (h ∉ window))

/-- C8 (code bug): with `taboo_len` set, the non-improving acceptance
predicate of `Taboo.run` never computes a recency window at all — every
evaluation raises `TypeError`, because `taboo_set` is a builtin `set` and
`taboo_set[-taboo_len::]` subscripts it (and an unordered `set` retains no
insertion recency to window by).  In particular it does not accept a
candidate iff its hash avoids the `taboo_len` most recent hashes. -/
theorem taboo_bounded_window_raises (taboo_len : ℕ) (taboo_set : Finset ℕ)
    (h : ℕ) :
    criteriaNontabooBounded taboo_len taboo_set h
      = Except.error PyErr.typeError := rfl

/-! ### Combinatorial indexer (sterling.py, solution_space.py) -/

/-- `nCr` from sterling.py: the factorial-table ratio `n! / (k! * (n-k)!)`. -/
def nCr (n k : ℕ) : ℕ := n.factorial / (k.factorial * (n - k).factorial)

/-- `count_part`: number of ways of partitioning `n` items into `k` non-empty
subsets.  Base case `k == 1` returns 1; otherwise sum over the extra size `y`
of the subset containing the first element, `y` ranging over
`range(0, n-k+1)` — a range with `max 0 (n-k+1) = n+1-k` elements, matching
Python's empty range when `n < k - 1`.  Calls never pass `k = 0` (the Python
recursion would not terminate there); that case is mapped to `0`. -/
def count_part : ℕ → ℕ → ℕ
  | _, 0 => 0
  | _, 1 => 1
  | n, k + 2 =>
      ((List.range (n + 1 - (k + 2))).map fun y =>
        count_part (n - 1 - y) (k + 1) * nCr (n - 1) y).sum

/-- The `for x in range(n)` scan of `ith_subset`: subtract `nCr(n-x-1, k-1)`
sized blocks from `i` until it falls inside one, returning the chosen `x` and
the remaining `i`.  When the loop completes without break, Python leaves
`x = n - 1` with `i` already decremented by the last block.  The first
argument counts the remaining iterations (`n - 1 - x`), making the recursion
structural. -/
def ithSubsetFind (n k : ℕ) : ℕ → ℕ → ℕ → ℕ × ℕ
  | 0, x, i =>
      let extra := nCr (n - x - 1) (k - 1)
      (x, if i < extra then i else i - extra)
  | d + 1, x, i =>
      let extra := nCr (n - x - 1) (k - 1)
      if i < extra then (x, i) else ithSubsetFind n k d (x + 1) (i - extra)

/-- `ith_subset`: the first subset of the i-th k-subset partition of `A`.
For `k = 0` Python returns `[]` (also when `A` is empty, where the `n == k`
branch returns `A = []`). -/
def ith_subset : List ℕ → ℕ → ℕ → List ℕ
  | _, 0, _ => []
  | A, k + 1, i =>
      if A.length = k + 1 then A
      else
        let r := ithSubsetFind A.length (k + 1) (A.length - 1) 0 i
        A.getD r.1 0 :: ith_subset (A.drop (r.1 + 1)) k r.2

/-- The `for y in range(0, n-k+1)` scan of `gen_part`, analogous to
`ithSubsetFind`; the first argument counts the remaining iterations
(`(n + 1 - k) - 1 - y`). -/
def genPartFind (n k : ℕ) : ℕ → ℕ → ℕ → ℕ × ℕ
  | 0, y, i =>
      let extra := count_part (n - 1 - y) (k - 1) * nCr (n - 1) y
      (y, if i < extra then i else i - extra)
  | d + 1, y, i =>
      let extra := count_part (n - 1 - y) (k - 1) * nCr (n - 1) y
      if i < extra then (y, i) else genPartFind n k d (y + 1) (i - extra)

/-- `gen_part`: the i-th k-partition of `A` as a list of subsets, each in
`A`'s order, recursing with `divmod(i, nCr(n-1, y))`.  `k = 0` never occurs
in calls (Python would not terminate there). -/
def gen_part : List ℕ → ℕ → ℕ → List (List ℕ)
  | _, 0, _ => []
  | A, 1, _ => [A]
  | A, k + 2, i =>
      let n := A.length
      let r := genPartFind n (k + 2) (n - (k + 2)) 0 i
      let cp := r.2 / nCr (n - 1) r.1
      let cs := r.2 % nCr (n - 1) r.1
      let subset := A.headD 0 :: ith_subset (A.drop 1) r.1 cs
      subset :: gen_part (A.filter fun a => decide (a ∉ subset)) (k + 1) cp

/-- Python list comparison (`<`) on `list[int]`: lexicographic, a strict
prefix is smaller. -/
def listLtN : List ℕ → List ℕ → Bool
  | [], [] => false
  | [], _ :: _ => true
  | _ :: _, [] => false
  | a :: as, b :: bs => if a < b then true else if b < a then false else listLtN as bs

/-- Python list comparison on `list[list[int]]`. -/
def listLtLN : List (List ℕ) → List (List ℕ) → Bool
  | [], [] => false
  | [], _ :: _ => true
  | _ :: _, [] => false
  | a :: as, b :: bs =>
      if listLtN a b then true else if listLtN b a then false else listLtLN as bs

/-- All ways to insert an element into a list. -/
def insertEverywhere (x : List ℕ) : List (List ℕ) → List (List (List ℕ))
  | [] => [[x]]
  | y :: ys => (x :: y :: ys) :: (insertEverywhere x ys).map fun l => y :: l

/-- All permutations of a list (with repetitions when the input has duplicate
entries). -/
def permsOf : List (List ℕ) → List (List (List ℕ))
  | [] => [[]]
  | x :: xs => (permsOf xs).flatMap (insertEverywhere x)

/-- `more_itertools.distinct_permutations`: sorts its input and emits the
distinct permutations in ascending lexicographic order (Python list
comparison).  Modelled as: all permutations, sorted lexicographically,
duplicates removed (duplicates are adjacent after sorting, so the emitted
sequence is the ascending sequence of distinct permutations either way). -/
def distinctPerms (l : List (List ℕ)) : List (List (List ℕ)) :=
  (List.insertionSort (fun a b => listLtLN b a = false) (permsOf l)).dedup

/-- `get_distinct_permutation_count` (solution_space.py):
`factorial(n) // factorial(n_dupes)`. -/
def get_distinct_permutation_count (n n_dupes : ℕ) : ℕ :=
  n.factorial / n_dupes.factorial

/-- `update_cache` (solution_space.py): for each number of empty queues `e`
in `range(k)`, the tuple `(cumulative_count, e, n_parts, n_perms)` with
`n_parts = count_part(n, k-e)` and `n_perms = k!/e!`. -/
def cacheEntries (n k : ℕ) : List (ℕ × ℕ × ℕ × ℕ) :=
  (List.range k).foldl
    (fun acc e =>
      let n_parts := count_part n (k - e)
      let n_perms := get_distinct_permutation_count k e
      acc ++ [((acc.getLastD (0, 0, 0, 0)).1 + n_parts * n_perms, e, n_parts, n_perms)])
    []

/-- `get_solution_space_size`: the last cumulative count of the cache. -/
def get_solution_space_size (n k : ℕ) : ℕ :=
  ((cacheEntries n k).getLastD (0, 0, 0, 0)).1

/-- The bucket-location loop of `get_ith_solution`: skip entries whose
cumulative count is at most `i`, tracking the previous cumulative count;
on the first larger entry return `(i - last_cum, e, n_parts, n_perms)`.
Falling off the end models the Python function's implicit `None`. -/
def findBucket : List (ℕ × ℕ × ℕ × ℕ) → ℕ → ℕ → Option (ℕ × ℕ × ℕ × ℕ)
  | [], _, _ => none
  | (cum, e, np, nper) :: rest, last, i =>
      if i ≥ cum then findBucket rest cum i
      else some (i - last, e, np, nper)

/-- `get_ith_solution` (solution_space.py): locate the empty-queue bucket `e`,
split the local index by `divmod` into partition and permutation indices,
build `e` empty queues plus the `gen_part` partition, and take the
`i_perm`-th distinct permutation of that list of queues
(`list(distinct_permutations(part))[i_perm]` — Python list indexing raises
`IndexError` out of range).  Falling off the bucket loop is the function's
implicit `None`.  The instance enters only through its order ids and its
machine count `k`. -/
def get_ith_solution (order_ids : List ℕ) (k : ℕ) (i : ℕ) :
    Except PyErr (Option (List (List ℕ))) :=
  match findBucket (cacheEntries order_ids.length k) 0 i with
  | none => Except.ok none
  | some (i_given_e, e, _, n_perms) =>
      let i_part := i_given_e / n_perms
      let i_perm := i_given_e % n_perms
      let part := List.replicate e ([] : List ℕ) ++ gen_part order_ids (k - e) i_part
      let perms := distinctPerms part
      if i_perm < perms.length then Except.ok (some (perms.getD i_perm []))
      else Except.error PyErr.indexError

/-- All length-`n` assignment vectors with entries in `range k` (a brute-force
enumeration of the maps item-to-machine). -/
def tuples : ℕ → ℕ → List (List ℕ)
  | 0, _ => [[]]
  | n + 1, k => (tuples n k).flatMap fun t => (List.range k).map fun m => m :: t

/-- The queue assignment described by an assignment vector: machine `m`'s
queue lists the items mapped to `m`, in the generator's canonical (ascending)
order. -/
def toQueues (n k : ℕ) (asst : List ℕ) : List (List ℕ) :=
  (List.range k).map fun m => (List.range n).filter fun o => asst.getD o 0 == m

/-- C4: for `n = 4` items and `k = 2` labeled queues, the indexer's
solution-space size (`Σ_e count_part(n, k-e) * k!/e!`) equals the number of
ways, counted by brute-force enumeration, to distribute 4 distinct labeled
items into 2 labeled ordered lists allowing empty lists with canonical
within-queue order — namely 16. -/
theorem solution_space_size_matches_bruteforce :
    get_solution_space_size 4 2 = 16 ∧
    ((tuples 4 2).map (toQueues 4 2)).dedup.length = 16 := by
  refine ⟨by decide, by decide⟩

/-- Exhaustive check of the indexer on small instances: over the full index
range the decoded solutions are pairwise distinct (and all defined) for
`(n, k)` equal to `(4, 2)` — the spec's example, with `N = 16` — and
`(3, 2)`, `(2, 3)`, `(4, 3)`, `(5, 2)`. -/
theorem nth_solution_distinct_small_instances :
    (((List.range (get_solution_space_size 4 2)).map
        (get_ith_solution (List.range 4) 2)).Nodup ∧
      ((List.range (get_solution_space_size 4 2)).map
        (get_ith_solution (List.range 4) 2)).all (fun r => r.toOption.join.isSome) = true ∧
      get_solution_space_size 4 2 = 16) ∧
    (((List.range (get_solution_space_size 3 2)).map
        (get_ith_solution (List.range 3) 2)).Nodup ∧
      ((List.range (get_solution_space_size 3 2)).map
        (get_ith_solution (List.range 3) 2)).all (fun r => r.toOption.join.isSome) = true) ∧
    (((List.range (get_solution_space_size 2 3)).map
        (get_ith_solution (List.range 2) 3)).Nodup ∧
      ((List.range (get_solution_space_size 2 3)).map
        (get_ith_solution (List.range 2) 3)).all (fun r => r.toOption.join.isSome) = true) ∧
    (((List.range (get_solution_space_size 4 3)).map
        (get_ith_solution (List.range 4) 3)).Nodup ∧
      ((List.range (get_solution_space_size 4 3)).map
        (get_ith_solution (List.range 4) 3)).all (fun r => r.toOption.join.isSome) = true) ∧
    (((List.range (get_solution_space_size 5 2)).map
        (get_ith_solution (List.range 5) 2)).Nodup ∧
      ((List.range (get_solution_space_size 5 2)).map
        (get_ith_solution (List.range 5) 2)).all (fun r => r.toOption.join.isSome) = true) := by
  exact ⟨⟨by decide, by decide, by decide⟩, ⟨by decide, by decide⟩,
    ⟨by decide, by decide⟩, ⟨by decide, by decide⟩, ⟨by decide, by decide⟩⟩


/-! ### Correctness of the indexer: generic block-subtraction loop -/

/-- The common shape of the scans `ithSubsetFind` and `genPartFind`: subtract
the block size `f x` from `i` while it does not fall inside, advancing `x`;
the countdown `d` is the number of remaining iterations. -/
def findLoop (f : ℕ → ℕ) : ℕ → ℕ → ℕ → ℕ × ℕ
  | 0, x, i => (x, if i < f x then i else i - f x)
  | d + 1, x, i => if i < f x then (x, i) else findLoop f d (x + 1) (i - f x)

/-- Sum of the block sizes `f x, f (x+1), ..., f (x+d)`. -/
def sumF (f : ℕ → ℕ) : ℕ → ℕ → ℕ
  | 0, x => f x
  | d + 1, x => f x + sumF f d (x + 1)

lemma ithSubsetFind_eq_findLoop (n k : ℕ) :
    ∀ d x i, ithSubsetFind n k d x i
      = findLoop (fun x => nCr (n - x - 1) (k - 1)) d x i := by
  intro d
  induction d with
  | zero => intro x i; rfl
  | succ d ih =>
      intro x i
      rw [ithSubsetFind, findLoop]
      split
      · rfl
      · exact ih (x + 1) _

lemma genPartFind_eq_findLoop (n k : ℕ) :
    ∀ d y i, genPartFind n k d y i
      = findLoop (fun y => count_part (n - 1 - y) (k - 1) * nCr (n - 1) y) d y i := by
  intro d
  induction d with
  | zero => intro y i; rfl
  | succ d ih =>
      intro y i
      rw [genPartFind, findLoop]
      split
      · rfl
      · exact ih (y + 1) _

lemma findLoop_fst_ge (f : ℕ → ℕ) : ∀ d x i, x ≤ (findLoop f d x i).1 := by
  intro d
  induction d with
  | zero => intro x i; exact le_refl x
  | succ d ih =>
      intro x i
      rw [findLoop]
      split
      · exact le_refl x
      · exact le_trans (by omega) (ih (x + 1) (i - f x))

lemma findLoop_fst_le (f : ℕ → ℕ) : ∀ d x i, (findLoop f d x i).1 ≤ x + d := by
  intro d
  induction d with
  | zero => intro x i; exact le_refl x
  | succ d ih =>
      intro x i
      rw [findLoop]
      split
      · omega
      · have := ih (x + 1) (i - f x)
        omega

lemma findLoop_snd_lt (f : ℕ → ℕ) :
    ∀ d x i, i < sumF f d x → (findLoop f d x i).2 < f (findLoop f d x i).1 := by
  intro d
  induction d with
  | zero =>
      intro x i hi
      rw [findLoop]
      rw [sumF] at hi
      simp only [if_pos hi]
      exact hi
  | succ d ih =>
      intro x i hi
      rw [findLoop]
      rw [sumF] at hi
      split
      · rename_i h
        exact h
      · rename_i h
        exact ih (x + 1) (i - f x) (by omega)

lemma findLoop_inj (f : ℕ → ℕ) :
    ∀ d x i1 i2, i1 < sumF f d x → i2 < sumF f d x →
      findLoop f d x i1 = findLoop f d x i2 → i1 = i2 := by
  intro d
  induction d with
  | zero =>
      intro x i1 i2 h1 h2 he
      rw [sumF] at h1 h2
      rw [findLoop, findLoop] at he
      simp only [if_pos h1, if_pos h2] at he
      exact congrArg Prod.snd he
  | succ d ih =>
      intro x i1 i2 h1 h2 he
      rw [sumF] at h1 h2
      rw [findLoop, findLoop] at he
      rcases Nat.lt_or_ge i1 (f x) with c1 | c1 <;>
        rcases Nat.lt_or_ge i2 (f x) with c2 | c2
      · rw [if_pos c1, if_pos c2] at he
        exact congrArg Prod.snd he
      · rw [if_pos c1, if_neg (by omega)] at he
        have := findLoop_fst_ge f d (x + 1) (i2 - f x)
        have hx : ((x, i1) : ℕ × ℕ).1 = (findLoop f d (x + 1) (i2 - f x)).1 :=
          congrArg Prod.fst he
        simp only at hx
        omega
      · rw [if_neg (by omega), if_pos c2] at he
        have := findLoop_fst_ge f d (x + 1) (i1 - f x)
        have hx : (findLoop f d (x + 1) (i1 - f x)).1 = ((x, i2) : ℕ × ℕ).1 :=
          congrArg Prod.fst he
        simp only at hx
        omega
      · rw [if_neg (by omega), if_neg (by omega)] at he
        have := ih (x + 1) (i1 - f x) (i2 - f x) (by omega) (by omega) he
        omega

lemma findLoop_absorb (f : ℕ → ℕ) :
    ∀ d' d x i, d' ≤ d → i < sumF f d' x → findLoop f d x i = findLoop f d' x i := by
  intro d'
  induction d' with
  | zero =>
      intro d x i _ hi
      rw [sumF] at hi
      cases d with
      | zero => rfl
      | succ d =>
          rw [findLoop, findLoop]
          simp only [if_pos hi]
  | succ d' ih =>
      intro d x i hdd hi
      rw [sumF] at hi
      cases d with
      | zero => omega
      | succ d =>
          rw [findLoop, findLoop]
          split
          · rfl
          · rename_i h
            exact ih d (x + 1) (i - f x) (by omega) (by omega)

lemma sumF_congr (f g : ℕ → ℕ) :
    ∀ d x, (∀ t, x ≤ t → t ≤ x + d → f t = g t) → sumF f d x = sumF g d x := by
  intro d
  induction d with
  | zero =>
      intro x h
      rw [sumF, sumF, h x (le_refl x) (by omega)]
  | succ d ih =>
      intro x h
      rw [sumF, sumF, h x (le_refl x) (by omega),
        ih (x + 1) fun t h1 h2 => h t (by omega) (by omega)]

lemma sumF_shift (f : ℕ → ℕ) :
    ∀ d x, sumF f d (x + 1) = sumF (fun t => f (t + 1)) d x := by
  intro d
  induction d with
  | zero => intro x; rfl
  | succ d ih =>
      intro x
      rw [sumF, sumF, ih (x + 1)]

/-- Hockey-stick: the block sums of the subset scan total a binomial
coefficient. -/
lemma sumF_choose : ∀ d r : ℕ,
    sumF (fun x => (d - x + r).choose r) d 0 = (d + r + 1).choose (r + 1) := by
  intro d
  induction d with
  | zero =>
      intro r
      rw [sumF]
      simp
  | succ d ih =>
      intro r
      rw [sumF, sumF_shift]
      have hcongr : sumF (fun t => (d + 1 - (t + 1) + r).choose r) d 0
          = sumF (fun t => (d - t + r).choose r) d 0 := by
        refine sumF_congr _ _ d 0 fun t h1 h2 => ?_
        congr 2
        omega
      rw [hcongr, ih r]
      have h1 : d + 1 - 0 + r = (d + r) + 1 := by omega
      have h2 : d + 1 + r + 1 = (d + r + 1) + 1 := by omega
      rw [h1, h2, Nat.choose_succ_succ (d + r + 1) r]

lemma range_sum_eq_sumF : ∀ (d : ℕ) (h : ℕ → ℕ),
    ((List.range (d + 1)).map h).sum = sumF h d 0 := by
  intro d
  induction d with
  | zero => intro h; rfl
  | succ d ih =>
      intro h
      rw [List.range_succ_eq_map, List.map_cons, List.sum_cons, List.map_map,
        sumF]
      have := ih (fun t => h (t + 1))
      rw [show sumF h d 1 = sumF (fun t => h (t + 1)) d 0 from sumF_shift h d 0]
      rw [← this]
      congr 1

lemma nCr_eq_choose {n k : ℕ} (h : k ≤ n) : nCr n k = n.choose k :=
  (Nat.choose_eq_factorial_div_factorial h).symm


/-- Block sums of the `ith_subset` scan over the clean region equal the
binomial coefficient `C(n, k+1)`. -/
lemma ithSubset_sum_eq (n k : ℕ) (hk : k + 1 ≤ n) :
    sumF (fun x => nCr (n - x - 1) k) (n - k - 1) 0 = n.choose (k + 1) := by
  have h1 : sumF (fun x => nCr (n - x - 1) k) (n - k - 1) 0
      = sumF (fun x => ((n - k - 1) - x + k).choose k) (n - k - 1) 0 := by
    refine sumF_congr _ _ _ 0 fun t h1 h2 => ?_
    rw [nCr_eq_choose (by omega)]
    congr 1
    omega
  rw [h1, sumF_choose (n - k - 1) k]
  congr 1
  omega

lemma ith_subset_len_sublist : ∀ (k : ℕ) (A : List ℕ) (i : ℕ), k ≤ A.length →
    i < A.length.choose k →
    (ith_subset A k i).length = k ∧ (ith_subset A k i).Sublist A := by
  intro k
  induction k with
  | zero =>
      intro A i _ _
      exact ⟨rfl, List.nil_sublist A⟩
  | succ k ih =>
      intro A i hk hi
      rw [ith_subset]
      by_cases hlen : A.length = k + 1
      · rw [if_pos hlen]
        exact ⟨hlen.symm ▸ rfl, List.Sublist.refl A⟩
      · rw [if_neg hlen]
        have hklt : k + 1 < A.length := by omega
        have hsum : sumF (fun x => nCr (A.length - x - 1) k) (A.length - k - 1) 0
            = A.length.choose (k + 1) := ithSubset_sum_eq A.length k (by omega)
        have habs : ithSubsetFind A.length (k + 1) (A.length - 1) 0 i
            = findLoop (fun x => nCr (A.length - x - 1) k) (A.length - k - 1) 0 i := by
          rw [ithSubsetFind_eq_findLoop]
          have he : k + 1 - 1 = k := by omega
          rw [he]
          exact findLoop_absorb _ (A.length - k - 1) (A.length - 1) 0 i (by omega)
            (by rw [hsum]; exact hi)
        rw [habs]
        cases hfl : findLoop (fun x => nCr (A.length - x - 1) k)
            (A.length - k - 1) 0 i with
        | mk x s =>
            have hx_le := findLoop_fst_le (fun x => nCr (A.length - x - 1) k)
              (A.length - k - 1) 0 i
            have hsnd := findLoop_snd_lt (fun x => nCr (A.length - x - 1) k)
              (A.length - k - 1) 0 i (by rw [hsum]; exact hi)
            rw [hfl] at hx_le hsnd
            simp only at hx_le hsnd
            have hxn : x < A.length := by omega
            rw [nCr_eq_choose (by omega)] at hsnd
            have hdlen : (A.drop (x + 1)).length = A.length - x - 1 := by
              rw [List.length_drop]
              omega
            have hrec := ih (A.drop (x + 1)) s (by omega) (by rw [hdlen]; exact hsnd)
            refine ⟨by simp [hrec.1], ?_⟩
            show (A.getD x 0 :: ith_subset (A.drop (x + 1)) k s).Sublist A
            rw [List.getD_eq_getElem A 0 hxn]
            have hsub1 : List.Sublist (A[x] :: ith_subset (A.drop (x + 1)) k s)
                (A[x] :: A.drop (x + 1)) := List.Sublist.cons₂ _ hrec.2
            have hsub2 : A[x] :: A.drop (x + 1) = A.drop x :=
              (List.drop_eq_getElem_cons hxn).symm
            rw [hsub2] at hsub1
            exact hsub1.trans (List.drop_sublist x A)

lemma ith_subset_inj : ∀ (k : ℕ) (A : List ℕ) (i1 i2 : ℕ), A.Nodup →
    k ≤ A.length → i1 < A.length.choose k → i2 < A.length.choose k →
    ith_subset A k i1 = ith_subset A k i2 → i1 = i2 := by
  intro k
  induction k with
  | zero =>
      intro A i1 i2 _ _ h1 h2 _
      simp [Nat.choose_zero_right] at h1 h2
      omega
  | succ k ih =>
      intro A i1 i2 hnd hk hi1 hi2 heq
      by_cases hlen : A.length = k + 1
      · rw [hlen, Nat.choose_self] at hi1 hi2
        omega
      · rw [ith_subset, ith_subset, if_neg hlen, if_neg hlen] at heq
        have hklt : k + 1 < A.length := by omega
        have hsum : sumF (fun x => nCr (A.length - x - 1) k) (A.length - k - 1) 0
            = A.length.choose (k + 1) := ithSubset_sum_eq A.length k (by omega)
        have habs : ∀ j, j < A.length.choose (k + 1) →
            ithSubsetFind A.length (k + 1) (A.length - 1) 0 j
              = findLoop (fun x => nCr (A.length - x - 1) k)
                  (A.length - k - 1) 0 j := by
          intro j hj
          rw [ithSubsetFind_eq_findLoop]
          have he : k + 1 - 1 = k := by omega
          rw [he]
          exact findLoop_absorb _ (A.length - k - 1) (A.length - 1) 0 j (by omega)
            (by rw [hsum]; exact hj)
        rw [habs i1 hi1, habs i2 hi2] at heq
        cases hfl1 : findLoop (fun x => nCr (A.length - x - 1) k)
            (A.length - k - 1) 0 i1 with
        | mk x1 s1 =>
        cases hfl2 : findLoop (fun x => nCr (A.length - x - 1) k)
            (A.length - k - 1) 0 i2 with
        | mk x2 s2 =>
            rw [hfl1, hfl2] at heq
            simp only at heq
            have hxle1 := findLoop_fst_le (fun x => nCr (A.length - x - 1) k)
              (A.length - k - 1) 0 i1
            have hxle2 := findLoop_fst_le (fun x => nCr (A.length - x - 1) k)
              (A.length - k - 1) 0 i2
            have hs1 := findLoop_snd_lt (fun x => nCr (A.length - x - 1) k)
              (A.length - k - 1) 0 i1 (by rw [hsum]; exact hi1)
            have hs2 := findLoop_snd_lt (fun x => nCr (A.length - x - 1) k)
              (A.length - k - 1) 0 i2 (by rw [hsum]; exact hi2)
            rw [hfl1] at hxle1 hs1
            rw [hfl2] at hxle2 hs2
            simp only at hxle1 hxle2 hs1 hs2
            have hx1 : x1 < A.length := by omega
            have hx2 : x2 < A.length := by omega
            rw [nCr_eq_choose (by omega)] at hs1
            rw [nCr_eq_choose (by omega)] at hs2
            have hhead : A.getD x1 0 = A.getD x2 0 := by
              have := congrArg List.head? heq
              simpa using this
            rw [List.getD_eq_getElem A 0 hx1, List.getD_eq_getElem A 0 hx2] at hhead
            have hxeq : x1 = x2 := hnd.getElem_inj_iff.mp hhead
            have htail : ith_subset (A.drop (x1 + 1)) k s1
                = ith_subset (A.drop (x2 + 1)) k s2 := by
              have := congrArg List.tail heq
              simpa using this
            rw [← hxeq] at htail hs2
            have hdlen : (A.drop (x1 + 1)).length = A.length - x1 - 1 := by
              rw [List.length_drop]
              omega
            have hseq : s1 = s2 :=
              ih (A.drop (x1 + 1)) s1 s2 (hnd.sublist (List.drop_sublist _ _))
                (by omega) (by rw [hdlen]; exact hs1) (by rw [hdlen]; exact hs2)
                htail
            refine findLoop_inj _ (A.length - k - 1) 0 i1 i2
              (by rw [hsum]; exact hi1) (by rw [hsum]; exact hi2) ?_
            rw [hfl1, hfl2, hxeq, hseq]

lemma filter_mem_of_sublist : ∀ {s A : List ℕ}, s.Sublist A → A.Nodup →
    A.filter (fun a => decide (a ∈ s)) = s := by
  intro s A h
  induction h with
  | slnil => intro _; rfl
  | @cons s' A' a h ih =>
      intro hnd
      have hnd' : A'.Nodup := (List.nodup_cons.mp hnd).2
      have ha : a ∉ A' := (List.nodup_cons.mp hnd).1
      have has : a ∉ s' := fun hmem => ha (h.subset hmem)
      rw [List.filter_cons, if_neg (by simp [has])]
      exact ih hnd'
  | @cons₂ s' A' a h ih =>
      intro hnd
      have hnd' : A'.Nodup := (List.nodup_cons.mp hnd).2
      have ha : a ∉ A' := (List.nodup_cons.mp hnd).1
      have hcongr : A'.filter (fun x => decide (x ∈ a :: s'))
          = A'.filter fun x => decide (x ∈ s') := by
        apply List.filter_congr
        intro x hx
        simp only [List.mem_cons, decide_eq_decide]
        constructor
        · rintro (rfl | hxs)
          · exact absurd hx ha
          · exact hxs
        · exact Or.inr
      rw [List.filter_cons, if_pos (by simp), hcongr, ih hnd']

lemma perm_filter_not_mem {s A : List ℕ} (h : s.Sublist A) (hnd : A.Nodup) :
    A.Perm (s ++ A.filter fun a => decide (a ∉ s)) := by
  have hp := List.filter_append_perm (fun a => decide (a ∈ s)) A
  rw [filter_mem_of_sublist h hnd] at hp
  have hfun : (fun a => !decide (a ∈ s)) = fun a => decide (a ∉ s) := by
    funext a
    simp
  rw [hfun] at hp
  exact hp.symm

lemma ms_filter_not_mem {s A : List ℕ} (h : s.Sublist A) (hnd : A.Nodup) :
    (↑A : Multiset ℕ) = ↑s + ↑(A.filter fun a => decide (a ∉ s)) := by
  have := perm_filter_not_mem h hnd
  rw [← Multiset.coe_eq_coe] at this
  rw [this, ← Multiset.coe_add]

lemma length_filter_not_mem {s A : List ℕ} (h : s.Sublist A) (hnd : A.Nodup) :
    (A.filter fun a => decide (a ∉ s)).length = A.length - s.length := by
  have := (perm_filter_not_mem h hnd).length_eq
  rw [List.length_append] at this
  omega

/-- The block sums of the `gen_part` scan over its whole range equal
`count_part n (k + 2)`. -/
lemma genPart_sum_eq (n k : ℕ) (h : k + 2 ≤ n) :
    sumF (fun y => count_part (n - 1 - y) (k + 1) * nCr (n - 1) y)
      (n - (k + 2)) 0 = count_part n (k + 2) := by
  have hdef : count_part n (k + 2)
      = ((List.range (n + 1 - (k + 2))).map fun y =>
          count_part (n - 1 - y) (k + 1) * nCr (n - 1) y).sum := rfl
  rw [hdef]
  have hb : n + 1 - (k + 2) = (n - (k + 2)) + 1 := by omega
  rw [hb, range_sum_eq_sumF]

lemma headD_cons_drop {A : List ℕ} (h : A ≠ []) : A.headD 0 :: A.drop 1 = A := by
  cases A with
  | nil => exact absurd rfl h
  | cons a t => rfl

/-- One unfolding step of `gen_part` at `k + 2`, with the bounds produced by
the scan. -/
lemma gen_part_decode (A : List ℕ) (k i : ℕ) (hk : k + 2 ≤ A.length)
    (hi : i < count_part A.length (k + 2)) :
    ∃ y i', genPartFind A.length (k + 2) (A.length - (k + 2)) 0 i = (y, i') ∧
      y ≤ A.length - (k + 2) ∧
      i' < count_part (A.length - 1 - y) (k + 1) * nCr (A.length - 1) y ∧
      gen_part A (k + 2) i
        = (A.headD 0 :: ith_subset (A.drop 1) y (i' % nCr (A.length - 1) y))
          :: gen_part
            (A.filter fun a =>
              decide (a ∉
                A.headD 0 :: ith_subset (A.drop 1) y (i' % nCr (A.length - 1) y)))
            (k + 1) (i' / nCr (A.length - 1) y) := by
  have hfeq : ∀ j, genPartFind A.length (k + 2) (A.length - (k + 2)) 0 j
      = findLoop (fun y => count_part (A.length - 1 - y) (k + 1) * nCr (A.length - 1) y)
          (A.length - (k + 2)) 0 j := by
    intro j
    rw [genPartFind_eq_findLoop]
    have he : k + 2 - 1 = k + 1 := by omega
    rw [he]
  have hsum : sumF
      (fun y => count_part (A.length - 1 - y) (k + 1) * nCr (A.length - 1) y)
      (A.length - (k + 2)) 0 = count_part A.length (k + 2) :=
    genPart_sum_eq A.length k hk
  cases hfl : genPartFind A.length (k + 2) (A.length - (k + 2)) 0 i with
  | mk y iv =>
      refine ⟨y, iv, rfl, ?_, ?_, ?_⟩
      · have := findLoop_fst_le
          (fun y => count_part (A.length - 1 - y) (k + 1) * nCr (A.length - 1) y)
          (A.length - (k + 2)) 0 i
        rw [← hfeq, hfl] at this
        simpa using this
      · have := findLoop_snd_lt
          (fun y => count_part (A.length - 1 - y) (k + 1) * nCr (A.length - 1) y)
          (A.length - (k + 2)) 0 i (by rw [hsum]; exact hi)
        rw [← hfeq, hfl] at this
        simpa using this
      · rw [gen_part, hfl]

/-- The first subset produced by a `gen_part` step: its length and that it is
a sublist of `A`. -/
lemma gen_part_subset_props (A : List ℕ) (y cs : ℕ) (h2 : 1 ≤ A.length)
    (hy : y ≤ A.length - 1) (hcs : cs < (A.length - 1).choose y) :
    (A.headD 0 :: ith_subset (A.drop 1) y cs).length = y + 1 ∧
    (A.headD 0 :: ith_subset (A.drop 1) y cs).Sublist A := by
  have hne : A ≠ [] := by
    intro h
    rw [h] at h2
    simp at h2
  have hdl : (A.drop 1).length = A.length - 1 := by
    rw [List.length_drop]
  have hsp := ith_subset_len_sublist y (A.drop 1) cs (by omega)
    (by rw [hdl]; exact hcs)
  refine ⟨by simp only [List.length_cons, hsp.1], ?_⟩
  have h1 : List.Sublist (A.headD 0 :: ith_subset (A.drop 1) y cs)
      (A.headD 0 :: A.drop 1) := List.Sublist.cons₂ _ hsp.2
  rw [headD_cons_drop hne] at h1
  exact h1

/-- `gen_part` bundle: under the scan bounds the result has `k` parts, every
part is a non-empty list of elements of `A`, and the concatenation of the
parts is exactly `A` as a multiset. -/
lemma gen_part_spec : ∀ (k : ℕ) (A : List ℕ) (i : ℕ), A.Nodup → 1 ≤ k →
    k ≤ A.length → i < count_part A.length k →
    (gen_part A k i).length = k ∧
    (∀ p ∈ gen_part A k i, p ≠ [] ∧ ∀ o ∈ p, o ∈ A) ∧
    (↑(gen_part A k i).flatten : Multiset ℕ) = ↑A := by
  intro k
  induction k with
  | zero => intro A i _ h; omega
  | succ k ih =>
      intro A i hnd _ hk hi
      cases k with
      | zero =>
          refine ⟨rfl, ?_, ?_⟩
          · intro p hp
            rcases List.mem_cons.mp hp with rfl | hp
            · refine ⟨?_, fun o ho => ho⟩
              intro h
              rw [h] at hk
              simp at hk
            · simp at hp
          · show (↑([A].flatten) : Multiset ℕ) = ↑A
            simp
      | succ k =>
          obtain ⟨y, iv, hfl, hy, hiv, hunf⟩ := gen_part_decode A k i hk hi
          have hcpos : 0 < nCr (A.length - 1) y := by
            rw [nCr_eq_choose (by omega)]
            exact Nat.choose_pos (by omega)
          have hcs : iv % nCr (A.length - 1) y < (A.length - 1).choose y := by
            rw [← nCr_eq_choose (by omega)]
            exact Nat.mod_lt _ hcpos
          have hcp : iv / nCr (A.length - 1) y
              < count_part (A.length - 1 - y) (k + 1) :=
            (Nat.div_lt_iff_lt_mul hcpos).mpr hiv
          set cs := iv % nCr (A.length - 1) y with hcsdef
          set cp := iv / nCr (A.length - 1) y with hcpdef
          set subset := A.headD 0 :: ith_subset (A.drop 1) y cs with hsubdef
          have hsp := gen_part_subset_props A y cs (by omega) (by omega) hcs
          have hsub : subset.Sublist A := hsp.2
          set B := A.filter fun a => decide (a ∉ subset) with hBdef
          have hBnd : B.Nodup := hnd.filter _
          have hBlen : B.length = A.length - (y + 1) := by
            rw [hBdef, length_filter_not_mem hsub hnd, hsp.1]
          have hBk : k + 1 ≤ B.length := by omega
          have hBcp : cp < count_part B.length (k + 1) := by
            rw [hBlen]
            have he : A.length - (y + 1) = A.length - 1 - y := by omega
            rw [he]
            exact hcp
          have hrec := ih B cp hBnd (by omega) hBk hBcp
          rw [hunf]
          refine ⟨by simp [hrec.1], ?_, ?_⟩
          · intro p hp
            rcases List.mem_cons.mp hp with rfl | hp
            · exact ⟨by simp, fun o ho => hsub.subset ho⟩
            · have := hrec.2.1 p hp
              refine ⟨this.1, fun o ho => ?_⟩
              have hoB := this.2 o ho
              rw [hBdef] at hoB
              exact (List.mem_filter.mp hoB).1
          · rw [List.flatten_cons]
            have hms := ms_filter_not_mem hsub hnd
            rw [← Multiset.coe_add]
            rw [hrec.2.2]
            rw [← hBdef] at hms
            rw [← hms]

/-- `gen_part` is injective in the partition index, even up to reordering of
the parts: two in-range indices producing the same multiset of parts are
equal. -/
lemma gen_part_ms_inj : ∀ (k : ℕ) (A : List ℕ) (i1 i2 : ℕ), A.Nodup → 1 ≤ k →
    k ≤ A.length → i1 < count_part A.length k → i2 < count_part A.length k →
    (↑(gen_part A k i1) : Multiset (List ℕ)) = ↑(gen_part A k i2) → i1 = i2 := by
  intro k
  induction k with
  | zero => intro A i1 i2 _ h; omega
  | succ k ih =>
      intro A i1 i2 hnd _ hk hi1 hi2 hmseq
      cases k with
      | zero =>
          have h1 : count_part A.length 1 = 1 := rfl
          rw [h1] at hi1 hi2
          omega
      | succ k =>
          obtain ⟨y1, iv1, hfl1, hy1, hiv1, hunf1⟩ := gen_part_decode A k i1 hk hi1
          obtain ⟨y2, iv2, hfl2, hy2, hiv2, hunf2⟩ := gen_part_decode A k i2 hk hi2
          have hcpos1 : 0 < nCr (A.length - 1) y1 := by
            rw [nCr_eq_choose (by omega)]
            exact Nat.choose_pos (by omega)
          have hcpos2 : 0 < nCr (A.length - 1) y2 := by
            rw [nCr_eq_choose (by omega)]
            exact Nat.choose_pos (by omega)
          have hcs1 : iv1 % nCr (A.length - 1) y1 < (A.length - 1).choose y1 := by
            rw [← nCr_eq_choose (by omega)]
            exact Nat.mod_lt _ hcpos1
          have hcs2 : iv2 % nCr (A.length - 1) y2 < (A.length - 1).choose y2 := by
            rw [← nCr_eq_choose (by omega)]
            exact Nat.mod_lt _ hcpos2
          have hcp1 : iv1 / nCr (A.length - 1) y1
              < count_part (A.length - 1 - y1) (k + 1) :=
            (Nat.div_lt_iff_lt_mul hcpos1).mpr hiv1
          have hcp2 : iv2 / nCr (A.length - 1) y2
              < count_part (A.length - 1 - y2) (k + 1) :=
            (Nat.div_lt_iff_lt_mul hcpos2).mpr hiv2
          set cs1 := iv1 % nCr (A.length - 1) y1 with hcs1def
          set cs2 := iv2 % nCr (A.length - 1) y2 with hcs2def
          set cp1 := iv1 / nCr (A.length - 1) y1 with hcp1def
          set cp2 := iv2 / nCr (A.length - 1) y2 with hcp2def
          set s1 := A.headD 0 :: ith_subset (A.drop 1) y1 cs1 with hs1def
          set s2 := A.headD 0 :: ith_subset (A.drop 1) y2 cs2 with hs2def
          have hsp1 := gen_part_subset_props A y1 cs1 (by omega) (by omega) hcs1
          have hsp2 := gen_part_subset_props A y2 cs2 (by omega) (by omega) hcs2
          set B2 := A.filter fun a => decide (a ∉ s2) with hB2def
          have hB2nd : B2.Nodup := hnd.filter _
          have hB2len : B2.length = A.length - (y2 + 1) := by
            rw [hB2def, length_filter_not_mem hsp2.2 hnd, hsp2.1]
          have hB2cp : cp2 < count_part B2.length (k + 1) := by
            rw [hB2len]
            have he : A.length - (y2 + 1) = A.length - 1 - y2 := by omega
            rw [he]
            exact hcp2
          have hrec2 := gen_part_spec (k + 1) B2 cp2 hB2nd (by omega)
            (by omega) hB2cp
          -- the first parts coincide
          have hmem : s1 ∈ gen_part A (k + 2) i2 := by
            have : s1 ∈ (↑(gen_part A (k + 2) i2) : Multiset (List ℕ)) := by
              rw [← hmseq, hunf1]
              exact Multiset.mem_coe.mpr (List.mem_cons_self _ _)
            exact Multiset.mem_coe.mp this
          rw [hunf2] at hmem
          have hss : s1 = s2 := by
            rcases List.mem_cons.mp hmem with h | h
            · exact h
            · exfalso
              have hh1 : A.headD 0 ∈ s1 := List.mem_cons_self _ _
              have hh2 : A.headD 0 ∈ s2 := List.mem_cons_self _ _
              have := (hrec2.2.1 s1 h).2 (A.headD 0) hh1
              rw [hB2def] at this
              have hnot := (List.mem_filter.mp this).2
              simp only [decide_eq_true_eq] at hnot
              exact hnot hh2
          have hyeq : y1 = y2 := by
            have := congrArg List.length hss
            rw [hs1def, hs2def] at this
            simp only [List.length_cons] at this
            have hl1 := (ith_subset_len_sublist y1 (A.drop 1) cs1 (by
                rw [List.length_drop]; omega)
              (by rw [List.length_drop]; exact hcs1)).1
            have hl2 := (ith_subset_len_sublist y2 (A.drop 1) cs2 (by
                rw [List.length_drop]; omega)
              (by rw [List.length_drop]; exact hcs2)).1
            omega
          have hcseq : cs1 = cs2 := by
            have htl : ith_subset (A.drop 1) y1 cs1 = ith_subset (A.drop 1) y2 cs2 := by
              have := congrArg List.tail hss
              simpa [hs1def, hs2def] using this
            rw [← hyeq] at htl
            exact ith_subset_inj y1 (A.drop 1) cs1 cs2
              (hnd.sublist (List.drop_sublist _ _)) (by rw [List.length_drop]; omega)
              (by rw [List.length_drop]; exact hcs1)
              (by rw [List.length_drop]; rw [← hyeq] at hcs2; exact hcs2) htl
          have hresteq : (↑(gen_part B2 (k + 1) cp1) : Multiset (List ℕ))
              = ↑(gen_part B2 (k + 1) cp2) := by
            have h1 := hmseq
            rw [hunf1, hunf2] at h1
            rw [← Multiset.cons_coe, ← Multiset.cons_coe, hss, ← hB2def] at h1
            exact (Multiset.cons_inj_right _).mp h1
          have hcpeq : cp1 = cp2 := by
            refine ih B2 cp1 cp2 hB2nd (by omega) (by omega) ?_ hB2cp hresteq
            rw [hB2len]
            have he : A.length - (y2 + 1) = A.length - 1 - y1 := by omega
            rw [he]
            exact hcp1
          have hiveq : iv1 = iv2 := by
            have e1 : nCr (A.length - 1) y1 * cp1 + cs1 = iv1 := by
              rw [hcp1def, hcs1def]
              exact Nat.div_add_mod iv1 _
            have e2 : nCr (A.length - 1) y2 * cp2 + cs2 = iv2 := by
              rw [hcp2def, hcs2def]
              exact Nat.div_add_mod iv2 _
            calc iv1 = nCr (A.length - 1) y1 * cp1 + cs1 := e1.symm
              _ = nCr (A.length - 1) y2 * cp2 + cs2 := by rw [hyeq, hcpeq, hcseq]
              _ = iv2 := e2
          have hfeq : ∀ j, genPartFind A.length (k + 2) (A.length - (k + 2)) 0 j
              = findLoop (fun y => count_part (A.length - 1 - y) (k + 1)
                  * nCr (A.length - 1) y) (A.length - (k + 2)) 0 j := by
            intro j
            rw [genPartFind_eq_findLoop]
            have he : k + 2 - 1 = k + 1 := by omega
            rw [he]
          have hsum : sumF
              (fun y => count_part (A.length - 1 - y) (k + 1) * nCr (A.length - 1) y)
              (A.length - (k + 2)) 0 = count_part A.length (k + 2) :=
            genPart_sum_eq A.length k hk
          refine findLoop_inj _ (A.length - (k + 2)) 0 i1 i2
            (by rw [hsum]; exact hi1) (by rw [hsum]; exact hi2) ?_
          rw [← hfeq, ← hfeq, hfl1, hfl2, hyeq, hiveq]

/-- Soundness of `insertEverywhere`: every produced list is an insertion of
`x` at some position. -/
lemma mem_insertEverywhere {x : List ℕ} : ∀ {p m : List (List ℕ)},
    m ∈ insertEverywhere x p →
    ∃ i, i ≤ p.length ∧ m = p.take i ++ x :: p.drop i := by
  intro p
  induction p with
  | nil =>
      intro m hm
      simp only [insertEverywhere, List.mem_singleton] at hm
      exact ⟨0, by simp, by simp [hm]⟩
  | cons y ys ih =>
      intro m hm
      simp only [insertEverywhere, List.mem_cons, List.mem_map] at hm
      rcases hm with h | ⟨l, hl, hml⟩
      · exact ⟨0, by simp, by simp [h]⟩
      · obtain ⟨i, hi, hil⟩ := ih hl
        exact ⟨i + 1, by simpa using hi, by simp [← hml, hil]⟩

/-- Completeness of `insertEverywhere`: every insertion of `x` is produced. -/
lemma insertEverywhere_complete {x : List ℕ} : ∀ (m1 m2 : List (List ℕ)),
    (m1 ++ x :: m2) ∈ insertEverywhere x (m1 ++ m2) := by
  intro m1
  induction m1 with
  | nil => intro m2; cases m2 <;> simp [insertEverywhere]
  | cons y ys ih =>
      intro m2
      simp only [List.cons_append, insertEverywhere, List.mem_cons, List.mem_map]
      exact Or.inr ⟨ys ++ x :: m2, ih m2, rfl⟩

/-- Members of `insertEverywhere x p` are permutations of `x :: p`. -/
lemma perm_of_mem_insertEverywhere {x : List ℕ} {p m : List (List ℕ)}
    (hm : m ∈ insertEverywhere x p) : m.Perm (x :: p) := by
  obtain ⟨i, _, him⟩ := mem_insertEverywhere hm
  rw [him]
  calc (p.take i ++ x :: p.drop i).Perm (x :: (p.take i ++ p.drop i)) :=
        List.perm_middle
    _ = x :: p := by rw [List.take_append_drop]

/-- `permsOf` generates exactly the permutations of its input. -/
lemma mem_permsOf : ∀ {l m : List (List ℕ)}, m ∈ permsOf l ↔ m.Perm l := by
  intro l
  induction l with
  | nil =>
      intro m
      simp only [permsOf, List.mem_singleton]
      exact ⟨fun h => h ▸ List.Perm.refl _, fun h => h.eq_nil⟩
  | cons x xs ih =>
      intro m
      simp only [permsOf, List.mem_flatMap]
      constructor
      · rintro ⟨p, hp, hm⟩
        exact (perm_of_mem_insertEverywhere hm).trans ((ih.mp hp).cons x)
      · intro hm
        have hx : x ∈ m := hm.mem_iff.mpr (List.mem_cons_self _ _)
        obtain ⟨m1, m2, hsplit⟩ := List.append_of_mem hx
        have hperm : (m1 ++ m2).Perm xs := by
          have h1 : (m1 ++ x :: m2).Perm (x :: (m1 ++ m2)) := List.perm_middle
          have h2 : (x :: (m1 ++ m2)).Perm (x :: xs) :=
            (h1.symm.trans (hsplit ▸ hm))
          exact h2.cons_inv
        exact ⟨m1 ++ m2, ih.mpr hperm, hsplit ▸ insertEverywhere_complete m1 m2⟩

/-- `distinctPerms` lists exactly the permutations of its input. -/
lemma mem_distinctPerms {l m : List (List ℕ)} :
    m ∈ distinctPerms l ↔ m.Perm l := by
  rw [distinctPerms, List.mem_dedup,
    (List.perm_insertionSort (fun a b => listLtLN b a = false) (permsOf l)).mem_iff]
  exact mem_permsOf

/-- `distinctPerms` has no duplicates. -/
lemma distinctPerms_nodup (l : List (List ℕ)) : (distinctPerms l).Nodup :=
  List.nodup_dedup _

/-- The number of distinct permutations depends only on the input up to
permutation. -/
lemma distinctPerms_length_congr {l l' : List (List ℕ)} (h : l.Perm l') :
    (distinctPerms l).length = (distinctPerms l').length := by
  have hfs : (distinctPerms l).toFinset = (distinctPerms l').toFinset := by
    ext m
    simp only [List.mem_toFinset, mem_distinctPerms]
    exact ⟨fun hm => hm.trans h, fun hm => hm.trans h.symm⟩
  calc (distinctPerms l).length = (distinctPerms l).toFinset.card :=
        (List.toFinset_card_of_nodup (distinctPerms_nodup l)).symm
    _ = (distinctPerms l').toFinset.card := by rw [hfs]
    _ = (distinctPerms l').length :=
        List.toFinset_card_of_nodup (distinctPerms_nodup l')

/-- Splitting off the first occurrence of an element not occurring in the
prefixes is unambiguous. -/
lemma append_cons_inj {x : List ℕ} : ∀ {l1 l2 r1 r2 : List (List ℕ)},
    x ∉ l1 → x ∉ l2 → l1 ++ x :: r1 = l2 ++ x :: r2 → l1 = l2 ∧ r1 = r2 := by
  intro l1
  induction l1 with
  | nil =>
      intro l2 r1 r2 _ h2 he
      cases l2 with
      | nil => simpa using he
      | cons b bs =>
          exfalso
          simp only [List.nil_append, List.cons_append, List.cons.injEq] at he
          exact h2 (he.1 ▸ List.mem_cons_self _ _)
  | cons a as ih =>
      intro l2 r1 r2 h1 h2 he
      cases l2 with
      | nil =>
          exfalso
          simp only [List.nil_append, List.cons_append, List.cons.injEq] at he
          exact h1 (he.1 ▸ List.mem_cons_self _ _)
      | cons b bs =>
          simp only [List.cons_append, List.cons.injEq] at he
          have h1' : x ∉ as := fun h => h1 (List.mem_cons_of_mem _ h)
          have h2' : x ∉ bs := fun h => h2 (List.mem_cons_of_mem _ h)
          obtain ⟨hl, hr⟩ := ih h1' h2' he.2
          exact ⟨by rw [he.1, hl], hr⟩

/-- Two different insertion positions of a fresh element give different
lists (and insertions into different lists stay different). -/
lemma insertEverywhere_inj {x : List ℕ} {p p' m : List (List ℕ)}
    (hx : x ∉ p) (hx' : x ∉ p')
    (hm : m ∈ insertEverywhere x p) (hm' : m ∈ insertEverywhere x p') :
    p = p' := by
  obtain ⟨i, hi, him⟩ := mem_insertEverywhere hm
  obtain ⟨j, hj, hjm⟩ := mem_insertEverywhere hm'
  have h1 : x ∉ p.take i := fun h => hx (List.mem_of_mem_take h)
  have h2 : x ∉ p'.take j := fun h => hx' (List.mem_of_mem_take h)
  obtain ⟨ht, hd⟩ := append_cons_inj h1 h2 (him.symm.trans hjm)
  calc p = p.take i ++ p.drop i := (List.take_append_drop _ _).symm
    _ = p'.take j ++ p'.drop j := by rw [ht, hd]
    _ = p' := List.take_append_drop _ _

/-- `insertEverywhere` produces `p.length + 1` lists. -/
lemma length_insertEverywhere (x : List ℕ) : ∀ (p : List (List ℕ)),
    (insertEverywhere x p).length = p.length + 1 := by
  intro p
  induction p with
  | nil => rfl
  | cons y ys ih => simp [insertEverywhere, ih]

/-- Inserting a fresh element produces pairwise different lists. -/
lemma insertEverywhere_nodup {x : List ℕ} : ∀ {p : List (List ℕ)}, x ∉ p →
    (insertEverywhere x p).Nodup := by
  intro p
  induction p with
  | nil => intro _; simp [insertEverywhere]
  | cons y ys ih =>
      intro hx
      have hxy : x ≠ y := fun h => hx (h ▸ List.mem_cons_self _ _)
      have hxys : x ∉ ys := fun h => hx (List.mem_cons_of_mem _ h)
      rw [insertEverywhere, List.nodup_cons]
      constructor
      · intro hmem
        obtain ⟨l, _, hl⟩ := List.mem_map.mp hmem
        exact hxy (by injection hl.symm)
      · exact (ih hxys).map fun a b h => by injection h

/-- A `flatMap` with duplicate-free, pairwise-disjoint pieces over a
duplicate-free list is duplicate-free. -/
lemma nodup_flatMap_of {α β : Type} [DecidableEq α] [DecidableEq β] :
    ∀ {L : List α} {f : α → List β}, L.Nodup → (∀ a ∈ L, (f a).Nodup) →
    (∀ a ∈ L, ∀ b ∈ L, ∀ m, m ∈ f a → m ∈ f b → a = b) →
    (L.flatMap f).Nodup := by
  intro L
  induction L with
  | nil => intro f _ _ _; simp
  | cons a as ih =>
      intro f hnd h1 h2
      rw [List.flatMap_cons]
      refine List.Nodup.append (h1 a (List.mem_cons_self _ _)) ?_ ?_
      · exact ih (List.nodup_cons.mp hnd).2
          (fun b hb => h1 b (List.mem_cons_of_mem _ hb))
          (fun b hb c hc => h2 b (List.mem_cons_of_mem _ hb)
            c (List.mem_cons_of_mem _ hc))
      · intro m hma hmas
        obtain ⟨b, hb, hmb⟩ := List.mem_flatMap.mp hmas
        have : a = b := h2 a (List.mem_cons_self _ _)
          b (List.mem_cons_of_mem _ hb) m hma hmb
        exact (List.nodup_cons.mp hnd).1 (this ▸ hb)

/-- Length of a `flatMap` whose pieces all have the same length. -/
lemma length_flatMap_const {α β : Type} :
    ∀ (L : List α) (f : α → List β) (c : ℕ), (∀ a ∈ L, (f a).length = c) →
    (L.flatMap f).length = L.length * c := by
  intro L
  induction L with
  | nil => intro f c _; simp
  | cons a as ih =>
      intro f c h
      rw [List.flatMap_cons, List.length_append, h a (List.mem_cons_self _ _),
        ih f c fun b hb => h b (List.mem_cons_of_mem _ hb)]
      simp [Nat.succ_mul, Nat.add_comm]

/-- A duplicate-free list contained in another list is no longer than it. -/
lemma length_le_of_nodup_subset {α : Type} [DecidableEq α]
    {l1 l2 : List α} (hnd : l1.Nodup) (hsub : ∀ a ∈ l1, a ∈ l2) :
    l1.length ≤ l2.length := by
  calc l1.length = l1.toFinset.card := (List.toFinset_card_of_nodup hnd).symm
    _ ≤ l2.toFinset.card := Finset.card_le_card fun a ha =>
        List.mem_toFinset.mpr (hsub a (List.mem_toFinset.mp ha))
    _ ≤ l2.length := List.toFinset_card_le l2

/-- Adding one element that does not already occur multiplies the number of
distinct permutations by at least the new length. -/
lemma distinctPerms_cons_ge (x : List ℕ) (rest : List (List ℕ))
    (hx : x ∉ rest) :
    (rest.length + 1) * (distinctPerms rest).length
      ≤ (distinctPerms (x :: rest)).length := by
  have hlen : ∀ p ∈ distinctPerms rest, (insertEverywhere x p).length
      = rest.length + 1 := by
    intro p hp
    rw [length_insertEverywhere, (mem_distinctPerms.mp hp).length_eq]
  have hnotin : ∀ p ∈ distinctPerms rest, x ∉ p := by
    intro p hp h
    exact hx ((mem_distinctPerms.mp hp).mem_iff.mp h)
  have hnd : ((distinctPerms rest).flatMap (insertEverywhere x)).Nodup := by
    refine nodup_flatMap_of (distinctPerms_nodup rest)
      (fun p hp => insertEverywhere_nodup (hnotin p hp)) ?_
    intro p hp p' hp' m hm hm'
    exact insertEverywhere_inj (hnotin p hp) (hnotin p' hp') hm hm'
  have hsub : ∀ m ∈ (distinctPerms rest).flatMap (insertEverywhere x),
      m ∈ distinctPerms (x :: rest) := by
    intro m hm
    obtain ⟨p, hp, hmp⟩ := List.mem_flatMap.mp hm
    exact mem_distinctPerms.mpr
      ((perm_of_mem_insertEverywhere hmp).trans
        ((mem_distinctPerms.mp hp).cons x))
  calc (rest.length + 1) * (distinctPerms rest).length
      = (distinctPerms rest).length * (rest.length + 1) := Nat.mul_comm _ _
    _ = ((distinctPerms rest).flatMap (insertEverywhere x)).length :=
        (length_flatMap_const _ _ _ hlen).symm
    _ ≤ (distinctPerms (x :: rest)).length :=
        length_le_of_nodup_subset hnd hsub

/-- A list of pairwise-different non-empty parts followed by `e` empty lists
has at least `(|P| + e)! / e!` distinct permutations (stated
multiplicatively). -/
lemma distinctPerms_parts_replicate_ge :
    ∀ (P : List (List ℕ)) (e : ℕ), P.Nodup → [] ∉ P →
    (P.length + e).factorial
      ≤ (distinctPerms (P ++ List.replicate e [])).length * e.factorial := by
  intro P
  induction P with
  | nil =>
      intro e _ _
      have hmem : List.replicate e ([] : List ℕ)
          ∈ distinctPerms (List.replicate e []) :=
        mem_distinctPerms.mpr (List.Perm.refl _)
      have hpos : 1 ≤ (distinctPerms (List.replicate e ([] : List ℕ))).length :=
        List.length_pos.mpr (List.ne_nil_of_mem hmem)
      simpa using Nat.mul_le_mul_right e.factorial hpos
  | cons p P' ih =>
      intro e hnd hne
      have hp1 : p ∉ P' := (List.nodup_cons.mp hnd).1
      have hpe : p ∉ List.replicate e ([] : List ℕ) := by
        intro h
        exact hne ((List.eq_of_mem_replicate h) ▸ List.mem_cons_self _ _)
      have hpx : p ∉ P' ++ List.replicate e ([] : List ℕ) := by
        intro h
        rcases List.mem_append.mp h with h | h
        · exact hp1 h
        · exact hpe h
      have hgrow := distinctPerms_cons_ge p (P' ++ List.replicate e []) hpx
      have hih := ih e (List.nodup_cons.mp hnd).2
        fun h => hne (List.mem_cons_of_mem _ h)
      have hlen : (P' ++ List.replicate e ([] : List ℕ)).length
          = P'.length + e := by simp
      calc ((p :: P').length + e).factorial
          = (P'.length + e + 1) * (P'.length + e).factorial := by
            simp only [List.length_cons]
            rw [Nat.add_right_comm]
            exact Nat.factorial_succ _
        _ ≤ (P'.length + e + 1)
            * ((distinctPerms (P' ++ List.replicate e [])).length
              * e.factorial) := Nat.mul_le_mul_left _ hih
        _ = ((P'.length + e + 1)
            * (distinctPerms (P' ++ List.replicate e [])).length)
            * e.factorial := (Nat.mul_assoc _ _ _).symm
        _ ≤ (distinctPerms (p :: (P' ++ List.replicate e []))).length
            * e.factorial := by
            refine Nat.mul_le_mul_right _ ?_
            rw [← hlen]
            exact hgrow
        _ = (distinctPerms ((p :: P') ++ List.replicate e [])).length
            * e.factorial := rfl

/-- Divided form of the distinct-permutation count bound, in the shape used
by `get_ith_solution`: empty queues in front. -/
lemma nper_le_distinctPerms_length (P : List (List ℕ)) (e : ℕ)
    (hnd : P.Nodup) (hne : [] ∉ P) :
    (P.length + e).factorial / e.factorial
      ≤ (distinctPerms (List.replicate e [] ++ P)).length := by
  have h1 := distinctPerms_parts_replicate_ge P e hnd hne
  have h2 : (distinctPerms (List.replicate e [] ++ P)).length
      = (distinctPerms (P ++ List.replicate e [])).length :=
    distinctPerms_length_congr List.perm_append_comm
  rw [h2]
  calc (P.length + e).factorial / e.factorial
      ≤ ((distinctPerms (P ++ List.replicate e [])).length
          * e.factorial) / e.factorial := Nat.div_le_div_right h1
    _ = (distinctPerms (P ++ List.replicate e [])).length :=
        Nat.mul_div_cancel _ e.factorial_pos

/-- If a flattened list of non-empty parts has no duplicate elements, the
list of parts itself has no duplicates. -/
lemma nodup_parts_of_flatten : ∀ {P : List (List ℕ)},
    (∀ p ∈ P, p ≠ []) → P.flatten.Nodup → P.Nodup := by
  intro P
  induction P with
  | nil => intro _ _; simp
  | cons p P' ih =>
      intro hne hfl
      rw [List.flatten_cons] at hfl
      have hdisj := (List.nodup_append.mp hfl).2.2
      rw [List.nodup_cons]
      constructor
      · intro hmem
        obtain ⟨a, ha⟩ := List.exists_mem_of_ne_nil p
          (hne p (List.mem_cons_self _ _))
        exact hdisj ha (List.mem_flatten.mpr ⟨p, hmem, ha⟩)
      · exact ih (fun q hq => hne q (List.mem_cons_of_mem _ hq))
          (List.nodup_append.mp hfl).2.1

/-- The parts of an in-range `gen_part` call on a duplicate-free ground list
are pairwise different, non-empty, and there are `k` of them. -/
lemma gen_part_parts (A : List ℕ) (k i : ℕ) (hnd : A.Nodup) (hk1 : 1 ≤ k)
    (hk2 : k ≤ A.length) (hi : i < count_part A.length k) :
    (gen_part A k i).length = k ∧ (gen_part A k i).Nodup ∧
    ([] : List ℕ) ∉ gen_part A k i := by
  obtain ⟨hlen, hparts, hflat⟩ := gen_part_spec k A i hnd hk1 hk2 hi
  have hne : ∀ p ∈ gen_part A k i, p ≠ [] := fun p hp => (hparts p hp).1
  have hperm : (gen_part A k i).flatten.Perm A := Multiset.coe_eq_coe.mp hflat
  have hflnd : (gen_part A k i).flatten.Nodup := hperm.nodup_iff.mpr hnd
  refine ⟨hlen, nodup_parts_of_flatten hne hflnd, fun h => (hne [] h) rfl⟩

/-! ### The cache and the bucket loop of `solution_space.py` -/

/-- Cumulative solution counts over the empty-queue buckets `0, …, e-1`. -/
def cumC (n k e : ℕ) : ℕ :=
  ((List.range e).map fun j =>
    count_part n (k - j) * get_distinct_permutation_count k j).sum

lemma cumC_succ (n k e : ℕ) : cumC n k (e + 1)
    = cumC n k e + count_part n (k - e) * get_distinct_permutation_count k e := by
  rw [cumC, cumC, List.range_succ, List.map_append, List.sum_append]
  simp

lemma cumC_mono (n k : ℕ) : ∀ {e1 e2 : ℕ}, e1 ≤ e2 → cumC n k e1 ≤ cumC n k e2 := by
  intro e1 e2 h
  induction e2 with
  | zero => simp [Nat.le_zero.mp h]
  | succ e ihe =>
      rcases Nat.lt_or_ge e1 (e + 1) with h' | h'
      · calc cumC n k e1 ≤ cumC n k e := ihe (by omega)
          _ ≤ cumC n k (e + 1) := by rw [cumC_succ]; omega
      · have : e1 = e + 1 := by omega
        rw [this]

/-- The cache built by `update_cache`, entry by entry. -/
lemma cacheEntries_eq_map (n k : ℕ) : cacheEntries n k
    = (List.range k).map fun e => (cumC n k (e + 1), e, count_part n (k - e),
        get_distinct_permutation_count k e) := by
  suffices h : ∀ m, (List.range m).foldl
      (fun acc e =>
        let n_parts := count_part n (k - e)
        let n_perms := get_distinct_permutation_count k e
        acc ++ [((acc.getLastD (0, 0, 0, 0)).1 + n_parts * n_perms, e,
          n_parts, n_perms)]) []
      = (List.range m).map fun e => (cumC n k (e + 1), e, count_part n (k - e),
          get_distinct_permutation_count k e) by
    exact h k
  intro m
  induction m with
  | zero => rfl
  | succ m ihm =>
      rw [List.range_succ, List.foldl_append, ihm, List.map_append]
      simp only [List.foldl_cons, List.foldl_nil, List.map_cons, List.map_nil]
      congr 1
      have hlast : (((List.range m).map fun e => (cumC n k (e + 1), e,
          count_part n (k - e), get_distinct_permutation_count k e)).getLastD
            (0, 0, 0, 0)).1 = cumC n k m := by
        cases m with
        | zero => rfl
        | succ j =>
            rw [List.range_succ, List.map_append]
            simp
      rw [hlast, ← cumC_succ]

/-- The solution-space size is the full cumulative count. -/
lemma solution_space_size_eq_cumC (n k : ℕ) :
    get_solution_space_size n k = cumC n k k := by
  rw [get_solution_space_size, cacheEntries_eq_map]
  cases k with
  | zero => rfl
  | succ j =>
      rw [List.range_succ, List.map_append]
      simp

/-- The bucket-skipping loop: on a cache segment starting at bucket `a`,
with `last` holding the cumulative count before bucket `a`, the loop lands
on the bucket `e` whose cumulative window contains `i`. -/
lemma findBucket_decode (n k : ℕ) : ∀ (cnt a e i : ℕ), a ≤ e → e < a + cnt →
    cumC n k e ≤ i → i < cumC n k (e + 1) →
    findBucket ((List.range' a cnt).map fun e' => (cumC n k (e' + 1), e',
        count_part n (k - e'), get_distinct_permutation_count k e'))
      (cumC n k a) i
    = some (i - cumC n k e, e, count_part n (k - e),
        get_distinct_permutation_count k e) := by
  intro cnt
  induction cnt with
  | zero => intro a e i h1 h2; omega
  | succ c ihc =>
      intro a e i h1 h2 h3 h4
      rw [List.range'_succ, List.map_cons, findBucket]
      rcases Nat.eq_or_lt_of_le h1 with he | he
      · subst he
        rw [if_neg (by omega)]
      · rw [if_pos ?_]
        · exact ihc (a + 1) e i (by omega) (by omega) h3 h4
        · have : cumC n k (a + 1) ≤ cumC n k e := cumC_mono n k (by omega)
          omega

/-- `findBucket` on the whole cache. -/
lemma findBucket_cache (n k e i : ℕ) (he : e < k) (h1 : cumC n k e ≤ i)
    (h2 : i < cumC n k (e + 1)) :
    findBucket (cacheEntries n k) 0 i
    = some (i - cumC n k e, e, count_part n (k - e),
        get_distinct_permutation_count k e) := by
  have h0 : (0 : ℕ) = cumC n k 0 := rfl
  rw [cacheEntries_eq_map, List.range_eq_range', h0]
  exact findBucket_decode n k k 0 e i (Nat.zero_le _) (by omega) h1 h2

/-- Discrete intermediate value: a monotone cumulative count starting at `0`
has a window containing any value below its total. -/
lemma exists_bucket (C : ℕ → ℕ) (h0 : C 0 = 0)
    (hmono : ∀ e1 e2, e1 ≤ e2 → C e1 ≤ C e2) :
    ∀ (m i : ℕ), i < C m → ∃ e, e < m ∧ C e ≤ i ∧ i < C (e + 1) := by
  intro m
  induction m with
  | zero => intro i h; omega
  | succ m ihm =>
      intro i h
      rcases Nat.lt_or_ge i (C m) with h' | h'
      · obtain ⟨e, he1, he2, he3⟩ := ihm i h'
        exact ⟨e, by omega, he2, he3⟩
      · exact ⟨m, by omega, h', h⟩

/-- Positivity of `count_part` forces the part count to fit the ground set
(when the ground set is non-empty). -/
lemma count_part_pos_le {n m : ℕ} (hn : 1 ≤ n) (h : 0 < count_part n m) :
    1 ≤ m ∧ m ≤ n := by
  match m with
  | 0 => simp [count_part] at h
  | 1 => exact ⟨le_refl 1, hn⟩
  | m + 2 =>
      refine ⟨by omega, ?_⟩
      by_contra hc
      have hz : n + 1 - (m + 2) = 0 := by omega
      rw [count_part, hz] at h
      simp at h

/-- `k!/e!` is positive for `e ≤ k`. -/
lemma nper_pos {k e : ℕ} (h : e ≤ k) : 0 < get_distinct_permutation_count k e :=
  Nat.div_pos (Nat.factorial_le h) e.factorial_pos

/-- Full decoding of an in-range `get_ith_solution` call on an instance with
at least one order: the call lands in bucket `e`, splits the local index by
`divmod`, and successfully returns the selected distinct permutation. -/
lemma get_ith_solution_decode (n k i : ℕ) (hn : 1 ≤ n) (hk : 1 ≤ k)
    (hi : i < get_solution_space_size n k) :
    ∃ e, e < k ∧ cumC n k e ≤ i ∧ i < cumC n k (e + 1) ∧
      0 < count_part n (k - e) ∧
      (i - cumC n k e) / get_distinct_permutation_count k e
        < count_part n (k - e) ∧
      (i - cumC n k e) % get_distinct_permutation_count k e
        < (distinctPerms (List.replicate e [] ++ gen_part (List.range n) (k - e)
            ((i - cumC n k e) / get_distinct_permutation_count k e))).length ∧
      get_ith_solution (List.range n) k i = Except.ok (some
        ((distinctPerms (List.replicate e [] ++ gen_part (List.range n) (k - e)
            ((i - cumC n k e) / get_distinct_permutation_count k e))).getD
          ((i - cumC n k e) % get_distinct_permutation_count k e) [])) := by
  rw [solution_space_size_eq_cumC] at hi
  obtain ⟨e, hek, hlo, hhi⟩ := exists_bucket (cumC n k) rfl
    (fun e1 e2 h => cumC_mono n k h) k i hi
  have hnper : 0 < get_distinct_permutation_count k e := nper_pos (by omega)
  have hwin : i - cumC n k e
      < count_part n (k - e) * get_distinct_permutation_count k e := by
    rw [cumC_succ] at hhi
    omega
  have hnp : 0 < count_part n (k - e) := by
    rcases Nat.eq_zero_or_pos (count_part n (k - e)) with h | h
    · rw [h] at hwin; omega
    · exact h
  have hipart : (i - cumC n k e) / get_distinct_permutation_count k e
      < count_part n (k - e) := (Nat.div_lt_iff_lt_mul hnper).mpr hwin
  have hke := count_part_pos_le hn hnp
  have hrnd : (List.range n).Nodup := List.nodup_range n
  have hrlen : (List.range n).length = n := List.length_range n
  obtain ⟨hplen, hpnd, hpne⟩ := gen_part_parts (List.range n) (k - e) _ hrnd
    hke.1 (by omega) (by rw [hrlen]; exact hipart)
  have hcount : get_distinct_permutation_count k e
      ≤ (distinctPerms (List.replicate e [] ++ gen_part (List.range n) (k - e)
          ((i - cumC n k e) / get_distinct_permutation_count k e))).length := by
    have h1 := nper_le_distinctPerms_length _ e hpnd hpne
    rw [hplen] at h1
    have h2 : k - e + e = k := by omega
    rw [h2] at h1
    exact h1
  have hiperm : (i - cumC n k e) % get_distinct_permutation_count k e
      < (distinctPerms (List.replicate e [] ++ gen_part (List.range n) (k - e)
          ((i - cumC n k e) / get_distinct_permutation_count k e))).length :=
    lt_of_lt_of_le (Nat.mod_lt _ hnper) hcount
  refine ⟨e, hek, hlo, hhi, hnp, hipart, hiperm, ?_⟩
  have hfb := findBucket_cache n k e i hek hlo hhi
  rw [get_ith_solution, hrlen, hfb]
  simp only
  rw [if_pos hiperm]

/-- C3 (amended): on every instance with at least one order and at least one
machine, `get_ith_solution` is injective over the index range. -/
theorem nth_solution_injective_of_orders_nonempty (n k i j : ℕ)
    (hn : 1 ≤ n) (hk : 1 ≤ k)
    (hi : i < get_solution_space_size n k) (hj : j < get_solution_space_size n k)
    (hij : i ≠ j) :
    (∃ q, get_ith_solution (List.range n) k i = Except.ok (some q)) ∧
      get_ith_solution (List.range n) k i ≠ get_ith_solution (List.range n) k j := by
  obtain ⟨e1, he1k, hlo1, hhi1, hnp1, hip1, hpm1, heq1⟩ :=
    get_ith_solution_decode n k i hn hk hi
  obtain ⟨e2, he2k, hlo2, hhi2, hnp2, hip2, hpm2, heq2⟩ :=
    get_ith_solution_decode n k j hn hk hj
  refine ⟨⟨_, heq1⟩, ?_⟩
  intro hcontra
  set d1 := (i - cumC n k e1) / get_distinct_permutation_count k e1 with hd1
  set m1 := (i - cumC n k e1) % get_distinct_permutation_count k e1 with hm1
  set d2 := (j - cumC n k e2) / get_distinct_permutation_count k e2 with hd2
  set m2 := (j - cumC n k e2) % get_distinct_permutation_count k e2 with hm2
  set P1 := gen_part (List.range n) (k - e1) d1 with hP1
  set P2 := gen_part (List.range n) (k - e2) d2 with hP2
  rw [heq1, heq2] at hcontra
  simp only [Except.ok.injEq, Option.some.injEq] at hcontra
  have hke1 := count_part_pos_le hn hnp1
  have hke2 := count_part_pos_le hn hnp2
  have hrnd : (List.range n).Nodup := List.nodup_range n
  have hrlen : (List.range n).length = n := List.length_range n
  obtain ⟨hplen1, hpnd1, hpne1⟩ := gen_part_parts (List.range n) (k - e1) d1 hrnd
    hke1.1 (by omega) (by rw [hrlen]; exact hip1)
  obtain ⟨hplen2, hpnd2, hpne2⟩ := gen_part_parts (List.range n) (k - e2) d2 hrnd
    hke2.1 (by omega) (by rw [hrlen]; exact hip2)
  rw [← hP1] at hplen1 hpnd1 hpne1
  rw [← hP2] at hplen2 hpnd2 hpne2
  have hL1 : (distinctPerms (List.replicate e1 [] ++ P1)).getD m1 []
      ∈ distinctPerms (List.replicate e1 [] ++ P1) := by
    rw [List.getD_eq_getElem _ _ hpm1]
    exact List.getElem_mem hpm1
  have hL2 : (distinctPerms (List.replicate e2 [] ++ P2)).getD m2 []
      ∈ distinctPerms (List.replicate e2 [] ++ P2) := by
    rw [List.getD_eq_getElem _ _ hpm2]
    exact List.getElem_mem hpm2
  have hperm1 := mem_distinctPerms.mp hL1
  have hperm2 := mem_distinctPerms.mp hL2
  have hpartperm : (List.replicate e1 ([] : List ℕ) ++ P1).Perm
      (List.replicate e2 [] ++ P2) :=
    hperm1.symm.trans (hcontra ▸ hperm2)
  have hmseqfull : (↑(List.replicate e1 ([] : List ℕ) ++ P1) : Multiset (List ℕ))
      = (↑(List.replicate e2 ([] : List ℕ) ++ P2) : Multiset (List ℕ)) :=
    Multiset.coe_eq_coe.mpr hpartperm
  have hcz1 : Multiset.count ([] : List ℕ) ↑P1 = 0 :=
    Multiset.count_eq_zero.mpr fun h => hpne1 (Multiset.mem_coe.mp h)
  have hcz2 : Multiset.count ([] : List ℕ) ↑P2 = 0 :=
    Multiset.count_eq_zero.mpr fun h => hpne2 (Multiset.mem_coe.mp h)
  have hee : e1 = e2 := by
    have hc := congrArg (Multiset.count ([] : List ℕ)) hmseqfull
    rw [← Multiset.coe_add, ← Multiset.coe_add, Multiset.count_add,
      Multiset.count_add, Multiset.coe_replicate, Multiset.coe_replicate,
      Multiset.count_replicate, hcz1, hcz2] at hc
    simpa using hc
  rw [← hee] at hlo2 hhi2 hip2 hpm2 hpartperm hplen2 hd2 hm2 hmseqfull hcontra
  have hms : (↑P1 : Multiset (List ℕ)) = ↑P2 := by
    have h := hmseqfull
    rw [← Multiset.coe_add, ← Multiset.coe_add] at h
    exact add_left_cancel h
  have hdd : d1 = d2 := by
    rw [hP1, hP2, ← hee] at hms
    refine gen_part_ms_inj (k - e1) (List.range n) d1 d2 hrnd hke1.1
      (by rw [hrlen]; omega) (by rw [hrlen]; exact hip1)
      (by rw [hrlen]; exact hip2) hms
  have hPP : P1 = P2 := by rw [hP1, hP2, ← hee, ← hdd]
  rw [← hPP] at hcontra hpm2
  have hmm : m1 = m2 := by
    rw [List.getD_eq_getElem _ _ hpm1, List.getD_eq_getElem _ _ hpm2] at hcontra
    exact (List.Nodup.getElem_inj_iff (distinctPerms_nodup _)).mp hcontra
  have hloc : i - cumC n k e1 = j - cumC n k e1 := by
    calc i - cumC n k e1
        = get_distinct_permutation_count k e1 * d1 + m1 :=
          (Nat.div_add_mod _ _).symm
      _ = get_distinct_permutation_count k e1 * d2 + m2 := by rw [hdd, hmm]
      _ = j - cumC n k e1 := by rw [hd2, hm2]; exact Nat.div_add_mod _ _
  omega

/-- C3 counterexample: the zero-order, two-machine instance reports a
solution-space size of 2, yet index 1 raises `IndexError`, so the
index-to-solution map is not a bijection onto 2 distinct assignments. -/
theorem nth_solution_zero_orders_counterexample :
    get_solution_space_size 0 2 = 2 ∧
    get_ith_solution (List.range 0) 2 0 = Except.ok (some [[], []]) ∧
    get_ith_solution (List.range 0) 2 1 = Except.error PyErr.indexError := by
  decide

/-- Witness: the amended C3 theorem applied to the 4-order, 2-machine
instance at indices 0 and 1. -/
theorem nth_solution_injective_of_orders_nonempty_witness :
    1 ≤ 4 ∧ 1 ≤ 2 ∧ 0 < get_solution_space_size 4 2 ∧
      1 < get_solution_space_size 4 2 ∧ (0 : ℕ) ≠ 1 ∧
      ((∃ q, get_ith_solution (List.range 4) 2 0 = Except.ok (some q)) ∧
        get_ith_solution (List.range 4) 2 0 ≠ get_ith_solution (List.range 4) 2 1) :=
  ⟨by decide, by decide, by decide, by decide, by decide,
    nth_solution_injective_of_orders_nonempty 4 2 0 1 (by decide) (by decide)
      (by decide) (by decide) (by decide)⟩

end PaintshopProof
